import Mathlib

/-!
# Strategy combinators of the indicator library

A shallow embedding of `strategy/and_strategy.go`, `strategy/decorator/delay_strategy.go`,
`strategy/decorator/noflat.go` and `strategy/volatility/bbw.go`.

Modelling conventions.

* A channel that is written by one producer and then closed is the finite list of the
  values sent on it; receiving from a closed channel is matching the empty list.
  `helper.Duplicate` hands every consumer the same list.
* `float64` is the type `F64`, IEEE 754 binary64: a finite value is its exact rational
  value, negative zero, the infinities and NaN are values of their own, and every
  arithmetic operation rounds its exact result to 53 significant bits (round to nearest,
  ties to even) with gradual underflow and overflow to an infinity.
* Go `int` is `Int`; `len` is the list length cast into `Int`.
* A run-time panic is the result `none`.
* A loop that the source does not bound (`for { ... }`) takes a fuel argument and
  reports whether it reached its `break`.
-/

namespace Indicator

/-! ## Data model -/

/-- Modelled from the spec: the type `strategy.Action` is declared outside the files
embedded here; an action is one of Buy, Hold, Sell. -/
inductive Action where
  | Buy
  | Hold
  | Sell
  deriving DecidableEq, Repr

/-- The values of a Go `float64` (IEEE 754 binary64): a finite value other than negative
zero, negative zero, the two infinities, NaN. The constructor `num 0` is positive zero. -/
inductive F64 where
  | num (q : ℚ)
  | nzero
  | pinf
  | ninf
  | nan
  deriving DecidableEq

namespace F64

/-- The sign bit of a value (`true` for negative values, negative zero and `-Inf`). -/
def signBit : F64 → Bool
  | num q => decide (q < 0)
  | nzero => true
  | pinf => false
  | ninf => true
  | nan => false

/-- The numeric value of a finite `float64`; `none` for the infinities and NaN. -/
def finite : F64 → Option ℚ
  | num q => some q
  | nzero => some 0
  | _ => none

/-- The zero with the given sign bit. -/
def zero (negative : Bool) : F64 := if negative then nzero else num 0

/-- The infinity with the given sign bit. -/
def inf (negative : Bool) : F64 := if negative then ninf else pinf

/-- The integer nearest to `x`, the even one of the two when `x` lies half-way. -/
def roundHalfEven (x : ℚ) : Int :=
  let f := Int.floor x
  let r := x - f
  if r < 1 / 2 then f
  else if 1 / 2 < r then f + 1
  else if f % 2 = 0 then f
  else f + 1

/-- The binary exponent of a positive rational: the `e` with `2^e <= a < 2^(e+1)`. -/
def exponent (a : ℚ) : Int :=
  let e : Int := (Nat.log2 a.num.natAbs : Int) - (Nat.log2 a.den : Int)
  if (2 : ℚ) ^ e ≤ a then e else e - 1

/-- Rounding of an exact non-zero result to binary64, round-to-nearest, ties-to-even:
53 significant bits, gradual underflow below `2^-1022` (spacing `2^-1074`), overflow to an
infinity from `2^1024` on. A result that rounds to zero keeps its sign. The exact value 0
gives positive zero. -/
def round (q : ℚ) : F64 :=
  if q = 0 then num 0
  else
    let a := |q|
    let u : ℚ := (2 : ℚ) ^ (max (exponent a) (-1022) - 52)
    let n := roundHalfEven (a / u)
    if (2 : ℚ) ^ (1024 : Int) ≤ n * u then inf (decide (q < 0))
    else if n = 0 then zero (decide (q < 0))
    else num (if q < 0 then -(n * u) else n * u)

/-- Unary minus: the sign bit is flipped. -/
def neg : F64 → F64
  | num q => if q = 0 then nzero else num (-q)
  | nzero => num 0
  | pinf => ninf
  | ninf => pinf
  | nan => nan

/-- Go `x + y` on `float64`. An exact sum of zero is positive zero unless both operands
are negative zero; infinities of opposite sign give NaN. -/
def add (x y : F64) : F64 :=
  match x, y with
  | nan, _ => nan
  | _, nan => nan
  | pinf, ninf => nan
  | ninf, pinf => nan
  | pinf, _ => pinf
  | _, pinf => pinf
  | ninf, _ => ninf
  | _, ninf => ninf
  | nzero, nzero => nzero
  | nzero, num b => round b
  | num a, nzero => round a
  | num a, num b => round (a + b)

/-- Go `x - y` on `float64`. -/
def sub (x y : F64) : F64 := add x (neg y)

/-- Go `x * y` on `float64`. The sign of the result is the exclusive or of the sign bits;
zero times an infinity is NaN. -/
def mul (x y : F64) : F64 :=
  match x, y with
  | nan, _ => nan
  | _, nan => nan
  | _, _ =>
    match finite x, finite y with
    | some a, some b =>
      if a * b = 0 then zero (xor (signBit x) (signBit y)) else round (a * b)
    | some a, none => if a = 0 then nan else inf (xor (signBit x) (signBit y))
    | none, some b => if b = 0 then nan else inf (xor (signBit x) (signBit y))
    | none, none => inf (xor (signBit x) (signBit y))

/-- Go `x / y` on `float64`. The sign of the result is the exclusive or of the sign bits;
a non-zero value over zero is an infinity, zero over zero and infinity over infinity are
NaN, a finite value over an infinity is zero. -/
def div (x y : F64) : F64 :=
  match x, y with
  | nan, _ => nan
  | _, nan => nan
  | _, _ =>
    match finite x, finite y with
    | some a, some b =>
      if b = 0 then (if a = 0 then nan else inf (xor (signBit x) (signBit y)))
      else if a = 0 then zero (xor (signBit x) (signBit y))
      else round (a / b)
    | some _, none => zero (xor (signBit x) (signBit y))
    | none, some _ => inf (xor (signBit x) (signBit y))
    | none, none => nan

/-- Go `x < y` on `float64`; every comparison with NaN is false and the two zeros are
equal. -/
def lt (x y : F64) : Bool :=
  match x, y with
  | nan, _ => false
  | _, nan => false
  | pinf, _ => false
  | _, ninf => false
  | ninf, _ => true
  | _, pinf => true
  | num a, num b => decide (a < b)
  | num a, nzero => decide (a < 0)
  | nzero, num b => decide (0 < b)
  | nzero, nzero => false

/-- Go `x == y` on `float64`; NaN is not equal to itself and the two zeros are equal. -/
def eq (x y : F64) : Bool :=
  match x, y with
  | num a, num b => decide (a = b)
  | num a, nzero => decide (a = 0)
  | nzero, num b => decide (b = 0)
  | nzero, nzero => true
  | pinf, pinf => true
  | ninf, ninf => true
  | _, _ => false

/-- Go `x > y` on `float64`. -/
def gt (x y : F64) : Bool := lt y x

/-- Go `x >= y` on `float64`. -/
def ge (x y : F64) : Bool := lt y x || eq x y

/-- Go `float64(n)` for a non-negative `int`. -/
def ofNat (n : Nat) : F64 := round (n : ℚ)

end F64

/-- Modelled from the spec: `asset.Snapshot` is declared outside the files embedded
here; one time-stamped observation of an asset with date, open, high, low, close and
volume. -/
structure Snapshot where
  Date : Int
  Open : F64
  High : F64
  Low : F64
  Close : F64
  Volume : F64

/-- Modelled from the spec: the interface `strategy.Strategy` is declared outside the
files embedded here; a strategy has `Name() -> string` and
`Compute(snapshot-stream) -> action-stream`. An interface value also has a dynamic type
and a dynamic value, which is what Go `==` looks at: `dynType` names the dynamic type,
`ident` stands for the dynamic value (the address, for a pointer), and `equal` is the
equality of the dynamic type with this value as its left operand, applied to the value of
another strategy of the same dynamic type. For a pointer type, as the strategies of this
repository are, it compares the two addresses, which is the default. It panics (`none`)
when the dynamic type is not comparable (a struct type that holds a slice, a map or a
function), and for a struct type it follows the fields, so that it may also panic on an
interface-typed field or be false on a value with a NaN field compared with itself. -/
structure Strategy where
  ident : Nat
  Name : String
  Compute : List Snapshot → List Action
  dynType : Nat := 0
  equal : Nat → Option Bool := fun other => some (ident == other)

/-- Go `first == second` on two `Strategy` interface values: values of different dynamic
types are unequal; values of one dynamic type are compared by the equality of that type,
which panics (`none`) for a type that is not comparable. -/
def Strategy.same (first second : Strategy) : Option Bool :=
  if first.dynType ≠ second.dynType then some false
  else first.equal second.ident

/-! ## Stream helpers used by the strategies -/

/-- Modelled from the spec: `asset.SnapshotsAsClosings` is defined outside the files
embedded here; it derives the closing column from a snapshot stream. -/
def SnapshotsAsClosings (snapshots : List Snapshot) : List F64 :=
  snapshots.map (fun s => s.Close)

/-- Modelled from the spec: `helper.Operate` (Combine2) is defined outside the files
embedded here; it reads one element from each input per step, applies the combining
function and stops as soon as any input closes. The combining function is a Go closure,
so it is given the state it captures and returns the new state. -/
def OperateWith {σ α β γ : Type} (o : σ → α → β → γ × σ) : σ → List α → List β → List γ
  | s, a :: ac, b :: bc => (o s a b).1 :: OperateWith o (o s a b).2 ac bc
  | _, [], _ => []
  | _, _ :: _, [] => []

/-- Modelled from the spec: `helper.Operate` for a combining function without captured
state. -/
def Operate {α β γ : Type} (o : α → β → γ) (ac : List α) (bc : List β) : List γ :=
  OperateWith (fun (_ : Unit) a b => (o a b, ())) () ac bc

/-- Modelled from the spec: `helper.Operate3` (Combine3) is defined outside the files
embedded here; the strict synchronous zip of three streams. -/
def Operate3 {α β γ δ : Type} (o : α → β → γ → δ) : List α → List β → List γ → List δ
  | a :: ac, b :: bc, c :: cc => o a b c :: Operate3 o ac bc cc
  | _, _, _ => []

/-- Modelled from the spec: `helper.Shift` is defined outside the files embedded here;
it prepends `n` copies of `fill` before the original sequence. -/
def Shift {α : Type} (c : List α) (count : Nat) (fill : α) : List α :=
  List.replicate count fill ++ c

/-- Modelled from the spec: `helper.Skip` is defined outside the files embedded here;
it drops the first `n` elements, passing the rest through unchanged. -/
def Skip {α : Type} (c : List α) (count : Nat) : List α :=
  c.drop count

/-- Modelled from the spec: `helper.Count` is defined outside the files embedded here
(only its test `TestCount` is); a running counter seeded at `state0` that emits one value
per input element and counts up by one. The test fixes which value comes first:
`Count(1, [1, 1, 1, 1])` is `[1, 2, 3, 4]`, so the seed itself is emitted for the first
element. The values of the input stream are not looked at. -/
def Count {α : Type} : Int → List α → List Int
  | _, [] => []
  | state0, _ :: other => state0 :: Count (state0 + 1) other

/-- Modelled from the spec: `helper.Change` is defined outside the files embedded here
(only its test `TestChange` is); for each position `i >= n` it emits
`value[i] - value[i-n]` and it emits nothing for the first `n` positions. The element type
is any type with a subtraction (the Go function is generic in its number type). -/
def Change {α : Type} [Sub α] (c : List α) (before : Nat) : List α :=
  List.zipWith (fun current earlier => current - earlier) (c.drop before) c

/-- Modelled from the spec: `helper.Last` is defined outside the files embedded here
(only its tests `TestLast` and `TestLastLessValues` are); it yields only the final `n`
elements, and all of them when the source has fewer than `n` elements. -/
def Last {α : Type} (c : List α) (count : Nat) : List α :=
  if c.length < count then c else c.drop (c.length - count)

/-- Modelled from the spec: `strategy.ActionSources` is defined outside the files
embedded here; the snapshots are duplicated once per member and each member's `Compute`
is run on its copy. -/
def ActionSources (strategies : List Strategy) (snapshots : List Snapshot) :
    List (List Action) :=
  strategies.map (fun s => s.Compute snapshots)

/-- Modelled from the spec: `strategy.CountActions` is defined outside the files
embedded here; it reads one action from every member and counts them by kind
(buy, hold, sell). The result is `none` (the `ok = false` return) when some member's
stream is closed; otherwise it carries the three counts and what is left of the streams. -/
def CountActions : List (List Action) → Option (Nat × Nat × Nat × List (List Action))
  | [] => some (0, 0, 0, [])
  | [] :: _ => none
  | (action :: ac) :: acs =>
    match CountActions acs with
    | none => none
    | some (buy, hold, sell, rest) =>
      match action with
      | Action.Buy => some (buy + 1, hold, sell, ac :: rest)
      | Action.Hold => some (buy, hold + 1, sell, ac :: rest)
      | Action.Sell => some (buy, hold, sell + 1, ac :: rest)

/-! ## and_strategy.go -/

/-- The struct `AndStrategy`. -/
structure AndStrategy where
  Strategies : List Strategy
  name : String

/-- The constructor `NewAndStrategy`. -/
def NewAndStrategy (name : String) : AndStrategy :=
  { Strategies := [], name := name }

/-- The constructor `NewAndStrategyWith`; `fmt.Sprintf("AND(%s)", strings.Join(names, ","))`. -/
def NewAndStrategyWith (ss : List Strategy) : AndStrategy :=
  let names := ss.map (fun s => s.Name)
  { Strategies := ss, name := "AND(" ++ ",".intercalate names ++ ")" }

/-- The method `AndStrategy.Name`. -/
def AndStrategy.Name (a : AndStrategy) : String := a.name

/-- The `if sell == and ... else if buy == and ... else ...` chain in the loop of
`AndStrategy.Compute`: the action sent on `result` for the counts of one step. -/
def AndStrategy.decision (and buy sell : Nat) : Action :=
  if sell = and then Action.Sell
  else if buy = and then Action.Buy
  else Action.Hold

/-- The goroutine of `AndStrategy.Compute`: the `for` loop over `CountActions`. The first
component is what was sent on `result`, the second tells whether the loop reached its
`break` (and so closed `result`) within the given number of iterations. -/
def AndStrategy.computeLoop (and : Nat) : Nat → List (List Action) → List Action × Bool
  | 0, _ => ([], false)
  | fuel + 1, sources =>
    match CountActions sources with
    | none => ([], true)
    | some (buy, _, sell, rest) =>
      (AndStrategy.decision and buy sell :: (AndStrategy.computeLoop and fuel rest).1,
        (AndStrategy.computeLoop and fuel rest).2)

/-- The method `AndStrategy.Compute`. -/
def AndStrategy.Compute (a : AndStrategy) (fuel : Nat) (snapshots : List Snapshot) :
    List Action × Bool :=
  let sources := ActionSources a.Strategies snapshots
  AndStrategy.computeLoop a.Strategies.length fuel sources

/-- The body of the inner loop of `AllAndStrategies` and of `AllAndStrategiesWith`:
`NewAndStrategy(fmt.Sprintf("%s and %s", ...))` followed by the assignment of the two
members. -/
def newPair (first second : Strategy) : AndStrategy :=
  let andStrategy := NewAndStrategy (first.Name ++ " and " ++ second.Name)
  { andStrategy with Strategies := [first, second] }

/-- The function `AllAndStrategies`. The outer loop ranges over the positions `i` of
`strategies`, the inner loop over `j = i + 1, ..., len(strategies) - 1`. The map `m` is
written and never read, and is left out. -/
def AllAndStrategies (strategies : List Strategy) : List AndStrategy :=
  (List.range strategies.length).foldl
    (fun andStrategies i =>
      match strategies[i]? with
      | none => andStrategies
      | some first =>
        (List.range' (i + 1) (strategies.length - (i + 1))).foldl
          (fun andStrategies j =>
            match strategies[j]? with
            | none => andStrategies
            | some second => andStrategies ++ [newPair first second])
          andStrategies)
    []

/-- The body of the inner loop of `AllAndStrategiesWith` on the slice built so far:
`first` itself is appended when `first == second`, otherwise a new pair; `none` once the
comparison has panicked. -/
def AllAndStrategiesWith.step (first : Strategy)
    (andStrategies : Option (List (Strategy ⊕ AndStrategy))) (second : Strategy) :
    Option (List (Strategy ⊕ AndStrategy)) :=
  match andStrategies with
  | none => none
  | some andStrategies =>
    match first.same second with
    | none => none
    | some true => some (andStrategies ++ [Sum.inl first])
    | some false => some (andStrategies ++ [Sum.inr (newPair first second)])

/-- The inner loop of `AllAndStrategiesWith`: `for _, second := range strategies2`. -/
def AllAndStrategiesWith.inner (strategies2 : List Strategy)
    (andStrategies : Option (List (Strategy ⊕ AndStrategy))) (first : Strategy) :
    Option (List (Strategy ⊕ AndStrategy)) :=
  strategies2.foldl (AllAndStrategiesWith.step first) andStrategies

/-- The function `AllAndStrategiesWith`. An element of the result is either the strategy
`first` itself (left) or a new `AndStrategy` (right). The result is `none` when a
comparison `first == second` panics. The map `m` is written and never read, and is left
out. -/
def AllAndStrategiesWith (strategies1 strategies2 : List Strategy) :
    Option (List (Strategy ⊕ AndStrategy)) :=
  strategies1.foldl (AllAndStrategiesWith.inner strategies2) (some [])

/-- The element `AllAndStrategiesWith` appends for a pair whose comparison does not
panic. -/
def pairElement (first second : Strategy) : Strategy ⊕ AndStrategy :=
  if first.same second = some true then Sum.inl first
  else Sum.inr { Strategies := [first, second], name := first.Name ++ " and " ++ second.Name }

/-! ## decorator/delay_strategy.go -/

/-- The struct `DelayStrategy` (the field is spelt `InnertStrategy` in the source). -/
structure DelayStrategy where
  InnertStrategy : Strategy
  Period : Int

/-- The closure passed to `helper.Operate` in `DelayStrategy.Compute`; the captured
variable `cnt` is the state. -/
def DelayStrategy.step (n : DelayStrategy) (cnt : Int) (action : Action) (_closing : F64) :
    Action × Int :=
  let cnt := cnt + 1
  if cnt ≤ n.Period then (Action.Hold, cnt) else (action, cnt)

/-- The method `DelayStrategy.Compute`. -/
def DelayStrategy.Compute (n : DelayStrategy) (snapshots : List Snapshot) : List Action :=
  let innerActions := n.InnertStrategy.Compute snapshots
  let closings := SnapshotsAsClosings snapshots
  OperateWith n.step 0 innerActions closings

/-! ## decorator/noflat.go -/

/-- The struct `NoFlatStrategy`. -/
structure NoFlatStrategy where
  InnerStrategy : Strategy
  Period : Int
  FlatThreshold : F64

/-- One iteration of the `for _, price := range closingWindow` loop of
`calculateFlatness` on the state `(minPrice, maxPrice, totalPrice)`. -/
def flatnessStep (st : F64 × F64 × F64) (price : F64) : F64 × F64 × F64 :=
  (if F64.lt price st.1 then price else st.1,
   if F64.gt price st.2.1 then price else st.2.1,
   F64.add st.2.2 price)

/-- The method `NoFlatStrategy.calculateFlatness`; `none` is the index-out-of-range panic
of `closingWindow[0]` on an empty window. -/
def NoFlatStrategy.calculateFlatness (n : NoFlatStrategy) (closingWindow : List F64) :
    Option (F64 × Bool) :=
  match closingWindow with
  | [] => none
  | first :: _ =>
    let st := closingWindow.foldl flatnessStep (first, first, F64.num 0)
    let minPrice := st.1
    let maxPrice := st.2.1
    let totalPrice := st.2.2
    let avgPrice := F64.div totalPrice (F64.ofNat closingWindow.length)
    let priceRange := F64.sub maxPrice minPrice
    let flatnessMeasure := F64.mul (F64.div priceRange avgPrice) (F64.num 100)
    let isFlat := F64.lt flatnessMeasure n.FlatThreshold
    some (flatnessMeasure, isFlat)

/-- The two statements that append the closing price to the window and maintain the
window size: `append`, then `closingWindow[1:]` when the length exceeds the period. -/
def NoFlatStrategy.slide (n : NoFlatStrategy) (closingWindow : List F64) (close : F64) :
    List F64 :=
  let closingWindow := closingWindow ++ [close]
  if (closingWindow.length : Int) > n.Period then closingWindow.drop 1 else closingWindow

/-- The `for` loop of the goroutine of `NoFlatStrategy.Compute`, with the window as
state; `none` when `calculateFlatness` panics. -/
def NoFlatStrategy.computeLoop (n : NoFlatStrategy) :
    List Action → List Snapshot → List F64 → Option (List Action)
  | action :: innerActions, snapshot :: flatnessSnapshots, closingWindow =>
    let closingWindow := n.slide closingWindow snapshot.Close
    if (closingWindow.length : Int) = n.Period then
      match n.calculateFlatness closingWindow with
      | none => none
      | some (_, isFlat) =>
        match NoFlatStrategy.computeLoop n innerActions flatnessSnapshots closingWindow with
        | none => none
        | some actions => some ((if isFlat then Action.Hold else action) :: actions)
    else
      match NoFlatStrategy.computeLoop n innerActions flatnessSnapshots closingWindow with
      | none => none
      | some actions => some (action :: actions)
  | [], _, _ => some []
  | _ :: _, [], _ => some []

/-- The method `NoFlatStrategy.Compute`; `make([]float64, 0, n.Period)` panics when the
capacity is negative. -/
def NoFlatStrategy.Compute (n : NoFlatStrategy) (snapshots : List Snapshot) :
    Option (List Action) :=
  let innerActions := n.InnerStrategy.Compute snapshots
  let flatnessSnapshots := snapshots
  if n.Period < 0 then none
  else NoFlatStrategy.computeLoop n innerActions flatnessSnapshots []

/-- The `for snapshot := range snapshots` loop of `computeFlatnessMeasures`, with the
window as state. -/
def NoFlatStrategy.measuresLoop (n : NoFlatStrategy) :
    List Snapshot → List F64 → Option (List F64)
  | snapshot :: snapshots, closingWindow =>
    let closingWindow := n.slide closingWindow snapshot.Close
    if (closingWindow.length : Int) = n.Period then
      match n.calculateFlatness closingWindow with
      | none => none
      | some (flatnessMeasure, _) =>
        match NoFlatStrategy.measuresLoop n snapshots closingWindow with
        | none => none
        | some measures => some (flatnessMeasure :: measures)
    else
      match NoFlatStrategy.measuresLoop n snapshots closingWindow with
      | none => none
      | some measures => some (F64.num 0 :: measures)
  | [], _ => some []

/-- The method `NoFlatStrategy.computeFlatnessMeasures`. -/
def NoFlatStrategy.computeFlatnessMeasures (n : NoFlatStrategy) (snapshots : List Snapshot) :
    Option (List F64) :=
  if n.Period < 0 then none
  else NoFlatStrategy.measuresLoop n snapshots []

/-- The loop of `NoFlatStrategy.Compute` once more, recording for every iteration the
window after the append and the trimming, and whether `calculateFlatness` is called on it
(the guard `len(closingWindow) == n.Period`). The record ends with the iteration in which
`calculateFlatness` panics. -/
def NoFlatStrategy.computeTrace (n : NoFlatStrategy) :
    List Action → List Snapshot → List F64 → List (List F64 × Bool)
  | _ :: innerActions, snapshot :: flatnessSnapshots, closingWindow =>
    let closingWindow := n.slide closingWindow snapshot.Close
    if (closingWindow.length : Int) = n.Period then
      match n.calculateFlatness closingWindow with
      | none => [(closingWindow, true)]
      | some _ =>
        (closingWindow, true) ::
          NoFlatStrategy.computeTrace n innerActions flatnessSnapshots closingWindow
    else
      (closingWindow, false) ::
        NoFlatStrategy.computeTrace n innerActions flatnessSnapshots closingWindow
  | [], _, _ => []
  | _ :: _, [], _ => []

/-- The loop of `computeFlatnessMeasures` once more, recording for every iteration the
window after the append and the trimming, and whether `calculateFlatness` is called on
it. -/
def NoFlatStrategy.measuresTrace (n : NoFlatStrategy) :
    List Snapshot → List F64 → List (List F64 × Bool)
  | snapshot :: snapshots, closingWindow =>
    let closingWindow := n.slide closingWindow snapshot.Close
    if (closingWindow.length : Int) = n.Period then
      match n.calculateFlatness closingWindow with
      | none => [(closingWindow, true)]
      | some _ =>
        (closingWindow, true) :: NoFlatStrategy.measuresTrace n snapshots closingWindow
    else
      (closingWindow, false) :: NoFlatStrategy.measuresTrace n snapshots closingWindow
  | [], _ => []

/-- The closings at positions `i - p + 1 .. i` of a closing column (the positions
`0 .. i` when `i < p - 1`). -/
def windowAt (closings : List F64) (p i : Nat) : List F64 :=
  (closings.take (i + 1)).drop (i + 1 - p)

/-- The largest price of a window of finite prices. -/
def windowMax (w : List ℚ) : ℚ := w.foldr max (w.headD 0)

/-- The smallest price of a window of finite prices. -/
def windowMin (w : List ℚ) : ℚ := w.foldr min (w.headD 0)

/-- The sum of a window of finite prices as `float64` additions from `0.0`, in arrival
order. -/
def windowSum (w : List ℚ) : F64 :=
  w.foldl (fun total price => F64.add total (F64.num price)) (F64.num 0)

/-- The mean price of a window of finite prices: the `float64` sum over the `float64`
count. -/
def windowMean (w : List ℚ) : F64 := F64.div (windowSum w) (F64.ofNat w.length)

/-- The flatness measure in the words of the spec, `(max - min) / mean * 100` over a
window of finite prices, evaluated in `float64` arithmetic. -/
def specFlatness (w : List ℚ) : F64 :=
  F64.mul (F64.div (F64.sub (F64.num (windowMax w)) (F64.num (windowMin w))) (windowMean w))
    (F64.num 100)

/-! ## volatility/bbw.go -/

/-- Modelled from the spec: `volatility.BollingerBands` is defined outside the files
embedded here; an indicator exposes `Compute(value-stream)`, here yielding the upper,
middle and lower band, and `IdlePeriod()`, the number of leading values it cannot
produce. -/
structure BollingerBands where
  Period : Int
  IdlePeriod : Nat
  Compute : List F64 → List F64 × List F64 × List F64

/-- The struct `BollingerBandsWidthStrategy`. -/
structure BollingerBandsWidthStrategy where
  BollingerBands : BollingerBands
  Sensitivity : F64

/-- The closure passed to `helper.Operate3` in `BollingerBandsWidthStrategy.Compute`. -/
def BollingerBandsWidthStrategy.widthAction (b : BollingerBandsWidthStrategy)
    (upper lower closing : F64) : Action :=
  if F64.eq closing (F64.num 0) then Action.Hold
  else
    let width := F64.div (F64.sub upper lower) closing
    if F64.ge width b.Sensitivity then Action.Buy else Action.Hold

/-- The method `BollingerBandsWidthStrategy.Compute`; the middle band is drained. -/
def BollingerBandsWidthStrategy.Compute (b : BollingerBandsWidthStrategy)
    (snapshots : List Snapshot) : List Action :=
  let closings := SnapshotsAsClosings snapshots
  let bands := b.BollingerBands.Compute closings
  let uppers := bands.1
  let lowers := bands.2.2
  let closings1 := Skip closings b.BollingerBands.IdlePeriod
  let actions := Operate3 b.widthAction uppers lowers closings1
  Shift actions b.BollingerBands.IdlePeriod Action.Hold

/-! ## Names joined by a separator, in the words of the spec -/

/-- The strings of a list joined by a separator: nothing for the empty list, the string
itself for a single one, and otherwise the first string, the separator, and the rest
joined in the same way. This is what the spec calls the names "joined by" the
separator; it is compared with the `strings.Join` of `NewAndStrategyWith`. -/
def joinedBy (sep : String) : List String → String
  | [] => ""
  | [x] => x
  | x :: y :: rest => x ++ sep ++ joinedBy sep (y :: rest)

/-- The loop of `NewAndStrategyWith` that collects the names:
`for _, s := range ss { names = append(names, s.Name()) }`, starting from the nil slice. -/
def collectNames (ss : List Strategy) : List String :=
  ss.foldl (fun names s => names ++ [s.Name]) []

/-! ## Sample inputs -/

/-- A strategy with a canned action sequence: it emits the given actions whatever the
snapshots are. -/
def canned (ident : Nat) (name : String) (actions : List Action) : Strategy :=
  { ident := ident, Name := name, Compute := fun _ => actions }

/-- A strategy that emits the given action once per snapshot. -/
def always (ident : Nat) (name : String) (action : Action) : Strategy :=
  { ident := ident, Name := name, Compute := fun snapshots => snapshots.map (fun _ => action) }

/-- A snapshot with the given closing price; the other columns are zero. -/
def closeAt (close : ℚ) : Snapshot :=
  { Date := 0, Open := F64.num 0, High := F64.num 0, Low := F64.num 0,
    Close := F64.num close, Volume := F64.num 0 }

/-- An AND group of two canned members of different length. -/
def sampleAnd : AndStrategy :=
  { Strategies := [canned 1 "a" [Action.Sell, Action.Buy, Action.Hold],
                   canned 2 "b" [Action.Sell, Action.Buy]],
    name := "sample" }

/-- A flatness decorator of period 2 and threshold 1 around a strategy that always buys. -/
def sampleNoFlat : NoFlatStrategy :=
  { InnerStrategy := always 1 "buy" Action.Buy, Period := 2, FlatThreshold := F64.num 1 }

/-- A flatness decorator of period 1 and threshold 1 around a strategy that always buys. -/
def sampleNoFlatOne : NoFlatStrategy :=
  { InnerStrategy := always 1 "buy" Action.Buy, Period := 1, FlatThreshold := F64.num 1 }

/-- A flatness decorator of period 0 around a strategy that always buys. -/
def sampleNoFlatZero : NoFlatStrategy :=
  { InnerStrategy := always 1 "buy" Action.Buy, Period := 0, FlatThreshold := F64.num 1 }

/-- An AND group of two members that emit one action per snapshot. -/
def sampleAndAligned : AndStrategy :=
  { Strategies := [always 1 "buy" Action.Buy, always 2 "sell" Action.Sell],
    name := "aligned" }

/-- A delay decorator of period 1 around a strategy that always buys. -/
def sampleDelay : DelayStrategy :=
  { InnertStrategy := always 1 "buy" Action.Buy, Period := 1 }

/-- A stand-in indicator with idle period 2 that yields, for every closing after the
first two, the closing plus one as upper band, the closing as middle band and the closing
minus one as lower band. -/
def sampleBands : BollingerBands :=
  { Period := 3, IdlePeriod := 2,
    Compute := fun closings =>
      ((closings.drop 2).map (fun c => F64.add c (F64.num 1)), closings.drop 2,
        (closings.drop 2).map (fun c => F64.sub c (F64.num 1))) }

/-- A band-width strategy over the stand-in indicator with sensitivity 1/2. -/
def sampleWidth : BollingerBandsWidthStrategy :=
  { BollingerBands := sampleBands, Sensitivity := F64.num (1 / 2) }

/-- A strategy value whose dynamic type is not comparable (in Go, say, a struct with a
slice field that implements `Strategy` with value receivers). -/
def sampleUncomparable : Strategy :=
  { ident := 1, Name := "x", Compute := fun snapshots => snapshots.map (fun _ => Action.Hold),
    dynType := 7, equal := fun _ => none }

/-- A flatness decorator of period 2 and threshold 29 around a strategy that always
buys. -/
def sampleNoFlatRounding : NoFlatStrategy :=
  { InnerStrategy := always 1 "buy" Action.Buy, Period := 2, FlatThreshold := F64.num 29 }

/-- A flatness decorator of period 2 around a strategy that always buys, whose threshold
is the `float64` nearest to `1000 / 7`. -/
def sampleNoFlatRoundingUp : NoFlatStrategy :=
  { InnerStrategy := always 1 "buy" Action.Buy, Period := 2,
    FlatThreshold := F64.num (5026338869833143 / 35184372088832) }

/-- A band-width strategy whose sensitivity is the `float64` nearest to `0.1`. -/
def sampleWidthRounding : BollingerBandsWidthStrategy :=
  { BollingerBands := sampleBands,
    Sensitivity := F64.num (3602879701896397 / 36028797018963968) }

/-- The closing price `2^1023`, a finite `float64`. -/
@[irreducible] def sampleHuge : ℚ := 2 ^ 1023

/-- The closing price `1.5 * 2^1023`, a finite `float64`. -/
@[irreducible] def sampleHuger : ℚ := 3 * 2 ^ 1022

/-! ## Lemmas on the stream helpers -/

theorem countActions_eq (sources : List (List Action)) (h : ∀ s ∈ sources, s ≠ []) :
    CountActions sources = some
      (sources.countP (fun s => decide (s.head? = some Action.Buy)),
       sources.countP (fun s => decide (s.head? = some Action.Hold)),
       sources.countP (fun s => decide (s.head? = some Action.Sell)),
       sources.map List.tail) := by
  induction sources with
  | nil => rfl
  | cons s rest ih =>
    have hrest : ∀ t ∈ rest, t ≠ [] := fun t ht => h t (List.mem_cons_of_mem _ ht)
    cases s with
    | nil => exact absurd rfl (h [] (List.mem_cons_self _ _))
    | cons a ac =>
      cases a <;> simp [CountActions, ih hrest, List.countP_cons]

theorem countActions_none (sources : List (List Action)) (h : [] ∈ sources) :
    CountActions sources = none := by
  induction sources with
  | nil => simp at h
  | cons s rest ih =>
    cases s with
    | nil => rfl
    | cons a ac =>
      have hmem : [] ∈ rest := by simpa using h
      simp [CountActions, ih hmem]

theorem countP_head_eq_length (sources : List (List Action)) (x : Action) :
    sources.countP (fun s => decide (s.head? = some x)) = sources.length ↔
      ∀ s ∈ sources, s[0]? = some x := by
  simp only [List.countP_eq_length, decide_eq_true_eq, List.head?_eq_getElem?]

theorem getElem?_succ_of_tail {α : Type} (s : List α) (i : Nat) :
    s.tail[i]? = s[i + 1]? := by
  cases s <;> simp

theorem computeLoop_spec (fuel : Nat) : ∀ (sources : List (List Action)),
    (∃ s ∈ sources, s.length < fuel) →
    ∃ out, AndStrategy.computeLoop sources.length fuel sources = (out, true) ∧
      (∀ s ∈ sources, out.length ≤ s.length) ∧
      (∃ s ∈ sources, out.length = s.length) ∧
      ∀ i, i < out.length →
        (out[i]? = some Action.Sell ↔ ∀ s ∈ sources, s[i]? = some Action.Sell) ∧
        (out[i]? = some Action.Buy ↔ ∀ s ∈ sources, s[i]? = some Action.Buy) := by
  induction fuel with
  | zero =>
    rintro sources ⟨s, _, hs⟩
    exact absurd hs (Nat.not_lt_zero _)
  | succ fuel ih =>
    rintro sources ⟨s0, hs0, hlen0⟩
    by_cases hnil : [] ∈ sources
    · refine ⟨[], ?_, ?_, ⟨[], hnil, rfl⟩, ?_⟩
      · simp [AndStrategy.computeLoop, countActions_none sources hnil]
      · intro s _
        exact Nat.zero_le _
      · intro i hi
        exact absurd hi (Nat.not_lt_zero _)
    · have hne : ∀ s ∈ sources, s ≠ [] := fun s hs h => hnil (h ▸ hs)
      have hs0ne : s0 ≠ [] := hne s0 hs0
      have htail : ∃ t ∈ sources.map List.tail, t.length < fuel := by
        refine ⟨s0.tail, List.mem_map_of_mem _ hs0, ?_⟩
        cases s0 with
        | nil => exact absurd rfl hs0ne
        | cons a t => simpa using hlen0
      obtain ⟨out, hout, hle, ⟨t, ht, hteq⟩, helem⟩ := ih (sources.map List.tail) htail
      rw [List.length_map] at hout
      have hpos : 0 < sources.length := List.length_pos_of_mem hs0
      refine ⟨AndStrategy.decision sources.length
          (sources.countP (fun s => decide (s.head? = some Action.Buy)))
          (sources.countP (fun s => decide (s.head? = some Action.Sell))) :: out, ?_, ?_, ?_, ?_⟩
      · simp only [AndStrategy.computeLoop, countActions_eq sources hne, hout]
      · intro s hs
        have h1 := hle s.tail (List.mem_map_of_mem _ hs)
        have h2 : s ≠ [] := hne s hs
        cases s with
        | nil => exact absurd rfl h2
        | cons a t => simpa using h1
      · obtain ⟨s, hs, rfl⟩ := List.mem_map.mp ht
        refine ⟨s, hs, ?_⟩
        have h2 : s ≠ [] := hne s hs
        cases s with
        | nil => exact absurd rfl h2
        | cons a t => simpa using hteq
      · intro i hi
        cases i with
        | zero =>
          have hS := countP_head_eq_length sources Action.Sell
          have hB := countP_head_eq_length sources Action.Buy
          by_cases hsell : sources.countP (fun s => decide (s.head? = some Action.Sell))
              = sources.length
          · have hall := hS.mp hsell
            have hnotbuy : ¬ ∀ s ∈ sources, s[0]? = some Action.Buy := by
              intro hb
              have h1 := hall s0 hs0
              have h2 := hb s0 hs0
              rw [h1] at h2
              exact absurd h2 (by decide)
            simp only [AndStrategy.decision, hsell, if_true, List.getElem?_cons_zero]
            exact ⟨⟨fun _ => hall, fun _ => trivial⟩, ⟨fun h => absurd h (by decide), fun h => absurd h hnotbuy⟩⟩
          · have hnotsell : ¬ ∀ s ∈ sources, s[0]? = some Action.Sell :=
              fun h => hsell (hS.mpr h)
            by_cases hbuy : sources.countP (fun s => decide (s.head? = some Action.Buy))
                = sources.length
            · have hall := hB.mp hbuy
              simp only [AndStrategy.decision, hsell, hbuy, if_true, if_false,
                List.getElem?_cons_zero]
              exact ⟨⟨fun h => absurd h (by decide), fun h => absurd h hnotsell⟩, ⟨fun _ => hall, fun _ => trivial⟩⟩
            · have hnotbuy : ¬ ∀ s ∈ sources, s[0]? = some Action.Buy :=
                fun h => hbuy (hB.mpr h)
              simp [AndStrategy.decision, hsell, hbuy, hnotsell, hnotbuy]
        | succ i =>
          have hi' : i < out.length := by simpa using hi
          obtain ⟨h1, h2⟩ := helem i hi'
          simp only [List.getElem?_cons_succ]
          constructor
          · rw [h1]
            simp [getElem?_succ_of_tail]
          · rw [h2]
            simp [getElem?_succ_of_tail]

theorem operateWith_length {σ α β γ : Type} (o : σ → α → β → γ × σ) :
    ∀ (s : σ) (ac : List α) (bc : List β),
      (OperateWith o s ac bc).length = min ac.length bc.length := by
  intro s ac
  induction ac generalizing s with
  | nil => intro bc; simp [OperateWith]
  | cons a ac ih =>
    intro bc
    cases bc with
    | nil => simp [OperateWith]
    | cons b bc => simp [OperateWith, ih, Nat.succ_min_succ]

theorem delay_getElem? (n : DelayStrategy) :
    ∀ (ac : List Action) (bc : List F64) (cnt : Int) (i : Nat),
      i < min ac.length bc.length →
      (OperateWith n.step cnt ac bc)[i]? =
        if cnt + (i + 1 : Nat) ≤ n.Period then some Action.Hold else ac[i]? := by
  intro ac
  induction ac with
  | nil => intro bc cnt i hi; simp at hi
  | cons a ac ih =>
    intro bc cnt i hi
    cases bc with
    | nil => simp at hi
    | cons b bc =>
      cases i with
      | zero =>
        by_cases h : cnt + 1 ≤ n.Period <;> simp [OperateWith, DelayStrategy.step, h]
      | succ i =>
        have hi' : i < min ac.length bc.length := by
          simp only [List.length_cons, Nat.succ_min_succ] at hi
          omega
        have hcnt : (n.step cnt a b).2 = cnt + 1 := by
          unfold DelayStrategy.step
          by_cases h : cnt + 1 ≤ n.Period <;> simp [h]
        simp only [OperateWith, List.getElem?_cons_succ, hcnt, ih bc (cnt + 1) i hi']
        have : cnt + 1 + ((i + 1 : Nat) : Int) = cnt + ((i + 1 + 1 : Nat) : Int) := by
          push_cast
          ring
        rw [this]

/-! ## AndStrategy.Compute -/

/-- C1. For an AndStrategy with at least one member and enough loop iterations (more than
the length of some member's action stream), `Compute` closes its output; the output is as
long as the shortest member action stream; and at every step `i` of the output it emits
Sell iff all members emit Sell at `i`, Buy iff all members emit Buy at `i`, and Hold
otherwise. -/
theorem and_compute_consensus (a : AndStrategy) (snapshots : List Snapshot) (fuel : Nat)
    (hfuel : ∃ s ∈ a.Strategies, (s.Compute snapshots).length < fuel) :
    ∃ out, a.Compute fuel snapshots = (out, true) ∧
      (∀ s ∈ a.Strategies, out.length ≤ (s.Compute snapshots).length) ∧
      (∃ s ∈ a.Strategies, out.length = (s.Compute snapshots).length) ∧
      ∀ i, i < out.length →
        (out[i]? = some Action.Sell ↔
          ∀ s ∈ a.Strategies, (s.Compute snapshots)[i]? = some Action.Sell) ∧
        (out[i]? = some Action.Buy ↔
          ∀ s ∈ a.Strategies, (s.Compute snapshots)[i]? = some Action.Buy) ∧
        (out[i]? = some Action.Hold ↔
          ¬ (∀ s ∈ a.Strategies, (s.Compute snapshots)[i]? = some Action.Sell) ∧
          ¬ (∀ s ∈ a.Strategies, (s.Compute snapshots)[i]? = some Action.Buy)) := by
  have hsrc : ∃ t ∈ ActionSources a.Strategies snapshots, t.length < fuel := by
    obtain ⟨s, hs, hlt⟩ := hfuel
    exact ⟨s.Compute snapshots, List.mem_map_of_mem _ hs, hlt⟩
  obtain ⟨out, hout, hle, ⟨t, ht, hteq⟩, helem⟩ :=
    computeLoop_spec fuel (ActionSources a.Strategies snapshots) hsrc
  have hlen : (ActionSources a.Strategies snapshots).length = a.Strategies.length := by
    simp [ActionSources]
  rw [hlen] at hout
  have hall : ∀ (x : Action) (i : Nat),
      (∀ t ∈ ActionSources a.Strategies snapshots, t[i]? = some x) ↔
        ∀ s ∈ a.Strategies, (s.Compute snapshots)[i]? = some x := by
    intro x i
    simp [ActionSources]
  refine ⟨out, hout, ?_, ?_, ?_⟩
  · intro s hs
    exact hle _ (List.mem_map_of_mem _ hs)
  · obtain ⟨s, hs, rfl⟩ := List.mem_map.mp ht
    exact ⟨s, hs, hteq⟩
  · intro i hi
    obtain ⟨h1, h2⟩ := helem i hi
    rw [hall] at h1 h2
    refine ⟨h1, h2, ?_⟩
    rw [← h1, ← h2]
    have hget : out[i]? = some out[i] := List.getElem?_eq_getElem hi
    rw [hget]
    cases out[i] <;> simp

/-- Witness for C1: two canned members, `[Sell, Buy, Hold]` and `[Sell, Buy]`, three loop
iterations. -/
theorem and_compute_consensus_witness :
    (∃ s ∈ sampleAnd.Strategies, (s.Compute []).length < 3) ∧
    ∃ out, sampleAnd.Compute 3 [] = (out, true) ∧
      (∀ s ∈ sampleAnd.Strategies, out.length ≤ (s.Compute []).length) ∧
      (∃ s ∈ sampleAnd.Strategies, out.length = (s.Compute []).length) ∧
      ∀ i, i < out.length →
        (out[i]? = some Action.Sell ↔
          ∀ s ∈ sampleAnd.Strategies, (s.Compute [])[i]? = some Action.Sell) ∧
        (out[i]? = some Action.Buy ↔
          ∀ s ∈ sampleAnd.Strategies, (s.Compute [])[i]? = some Action.Buy) ∧
        (out[i]? = some Action.Hold ↔
          ¬ (∀ s ∈ sampleAnd.Strategies, (s.Compute [])[i]? = some Action.Sell) ∧
          ¬ (∀ s ∈ sampleAnd.Strategies, (s.Compute [])[i]? = some Action.Buy)) :=
  ⟨⟨canned 2 "b" [Action.Sell, Action.Buy], by simp [sampleAnd], by decide⟩,
   and_compute_consensus sampleAnd [] 3
     ⟨canned 2 "b" [Action.Sell, Action.Buy], by simp [sampleAnd], by decide⟩⟩

/-! ## DelayStrategy.Compute -/

/-- C2. `DelayStrategy.Compute` emits as many actions as the shorter of the inner action
stream and the snapshot stream; every output position below the period is Hold, every
later position carries the inner action of that position; so with a period of at most 0
the output is the inner action stream (cut at the number of snapshots), and with a period
of at least the output length the output is all Hold. -/
theorem delay_compute_spec (n : DelayStrategy) (snapshots : List Snapshot) :
    (n.Compute snapshots).length =
      min (n.InnertStrategy.Compute snapshots).length snapshots.length ∧
    (∀ i, i < (n.Compute snapshots).length →
      (((i : Int) < n.Period → (n.Compute snapshots)[i]? = some Action.Hold) ∧
       (n.Period ≤ (i : Int) →
          (n.Compute snapshots)[i]? = (n.InnertStrategy.Compute snapshots)[i]?))) ∧
    (n.Period ≤ 0 →
      n.Compute snapshots = (n.InnertStrategy.Compute snapshots).take snapshots.length) ∧
    (((n.Compute snapshots).length : Int) ≤ n.Period →
      n.Compute snapshots = List.replicate (n.Compute snapshots).length Action.Hold) := by
  have hlen : (n.Compute snapshots).length =
      min (n.InnertStrategy.Compute snapshots).length snapshots.length := by
    simp [DelayStrategy.Compute, operateWith_length, SnapshotsAsClosings]
  have hget : ∀ i, i < (n.Compute snapshots).length →
      (n.Compute snapshots)[i]? =
        if ((i + 1 : Nat) : Int) ≤ n.Period then some Action.Hold
        else (n.InnertStrategy.Compute snapshots)[i]? := by
    intro i hi
    have hi' : i < min (n.InnertStrategy.Compute snapshots).length
        (SnapshotsAsClosings snapshots).length := by
      rw [hlen] at hi
      simpa [SnapshotsAsClosings] using hi
    have := delay_getElem? n _ _ 0 i hi'
    simpa [DelayStrategy.Compute] using this
  refine ⟨hlen, ?_, ?_, ?_⟩
  · intro i hi
    constructor
    · intro hp
      rw [hget i hi, if_pos (by push_cast; omega)]
    · intro hp
      rw [hget i hi, if_neg (by push_cast; omega)]
  · intro hp
    apply List.ext_getElem?
    intro i
    by_cases hi : i < (n.Compute snapshots).length
    · rw [hget i hi, if_neg (by push_cast; omega), List.getElem?_take]
      rw [hlen] at hi
      rw [if_pos (by omega)]
    · have h1 : (n.Compute snapshots)[i]? = none := List.getElem?_eq_none (by omega)
      rw [h1, List.getElem?_take]
      rw [hlen] at hi
      by_cases h2 : i < snapshots.length
      · rw [if_pos h2]
        exact (List.getElem?_eq_none (by omega)).symm
      · rw [if_neg h2]
  · intro hp
    apply List.ext_getElem?
    intro i
    by_cases hi : i < (n.Compute snapshots).length
    · rw [hget i hi, if_pos (by push_cast; omega), List.getElem?_replicate, if_pos hi]
    · have h1 : (n.Compute snapshots)[i]? = none := List.getElem?_eq_none (by omega)
      rw [h1, List.getElem?_replicate, if_neg hi]

/-! ## NoFlatStrategy -/

theorem slide_lastP (n : NoFlatStrategy) (p : Nat) (hp : 1 ≤ p) (hper : n.Period = p)
    (seen : List F64) (x : F64) :
    n.slide (seen.drop (seen.length - p)) x =
      (seen ++ [x]).drop ((seen ++ [x]).length - p) := by
  have happ : seen.drop (seen.length - p) ++ [x] = (seen ++ [x]).drop (seen.length - p) := by
    rw [List.drop_append_of_le_length (Nat.sub_le _ _)]
  unfold NoFlatStrategy.slide
  simp only [happ, hper, List.length_drop, List.length_append, List.length_singleton,
    List.drop_drop]
  by_cases h : p ≤ seen.length
  · rw [if_pos (by omega)]
    congr 1
    omega
  · rw [if_neg (by omega)]
    congr 1
    omega

theorem calculateFlatness_some (n : NoFlatStrategy) (w : List F64) (hw : w ≠ []) :
    ∃ m, n.calculateFlatness w = some (m, F64.lt m n.FlatThreshold) := by
  cases w with
  | nil => exact absurd rfl hw
  | cons a w => exact ⟨_, rfl⟩

theorem noflat_loop_spec (n : NoFlatStrategy) (p : Nat) (hp : 1 ≤ p) (hper : n.Period = p) :
    ∀ (acts : List Action) (snaps : List Snapshot) (seen : List F64),
      ∃ out, n.computeLoop acts snaps (seen.drop (seen.length - p)) = some out ∧
        out.length = min acts.length snaps.length ∧
        ∀ i, i < out.length →
          out[i]? =
            if ((seen ++ (SnapshotsAsClosings snaps).take (i + 1)).drop
                  (seen.length + (i + 1) - p)).length = p ∧
                (n.calculateFlatness ((seen ++ (SnapshotsAsClosings snaps).take (i + 1)).drop
                  (seen.length + (i + 1) - p))).map Prod.snd = some true
            then some Action.Hold else acts[i]? := by
  intro acts
  induction acts with
  | nil =>
    intro snaps seen
    exact ⟨[], by simp [NoFlatStrategy.computeLoop], by simp, by simp⟩
  | cons a acts ih =>
    intro snaps seen
    cases snaps with
    | nil => exact ⟨[], by simp [NoFlatStrategy.computeLoop], by simp, by simp⟩
    | cons sn snaps =>
      have hslide := slide_lastP n p hp hper seen sn.Close
      obtain ⟨out, hout, hlen, helem⟩ := ih snaps (seen ++ [sn.Close])
      have hne : (seen ++ [sn.Close]).drop ((seen ++ [sn.Close]).length - p) ≠ [] := by
        intro h
        have := congrArg List.length h
        simp only [List.length_drop, List.length_append, List.length_singleton,
          List.length_nil] at this
        omega
      obtain ⟨m, hm⟩ := calculateFlatness_some n _ hne
      have hw0 : (seen ++ (SnapshotsAsClosings (sn :: snaps)).take (0 + 1)).drop
          (seen.length + (0 + 1) - p) =
          (seen ++ [sn.Close]).drop ((seen ++ [sn.Close]).length - p) := by
        simp [SnapshotsAsClosings]
      have hlenInt : ∀ (l : List F64), ((l.length : Int) = (p : Int)) ↔ l.length = p := by
        intro l
        exact Int.ofNat_inj
      by_cases hfull :
          ((seen ++ [sn.Close]).drop ((seen ++ [sn.Close]).length - p)).length = p
      · refine ⟨(if F64.lt m n.FlatThreshold then Action.Hold else a) :: out, ?_, ?_, ?_⟩
        · simp only [NoFlatStrategy.computeLoop, hslide, hper, hlenInt, hfull, if_true,
            hm, hout]
        · simp [hlen, Nat.succ_min_succ]
        · intro i hi
          cases i with
          | zero =>
            rw [hw0, hm]
            simp only [hfull, true_and, List.getElem?_cons_zero, Option.map_some']
            by_cases hflat : F64.lt m n.FlatThreshold = true <;> simp [hflat]
          | succ i =>
            have hi' : i < out.length := by simpa using hi
            have := helem i hi'
            simp only [List.getElem?_cons_succ, this]
            have hw : (seen ++ [sn.Close] ++ (SnapshotsAsClosings snaps).take (i + 1)).drop
                ((seen ++ [sn.Close]).length + (i + 1) - p) =
                (seen ++ (SnapshotsAsClosings (sn :: snaps)).take (i + 1 + 1)).drop
                  (seen.length + (i + 1 + 1) - p) := by
              simp only [SnapshotsAsClosings, List.map_cons, List.take_succ_cons,
                List.append_assoc, List.singleton_append, List.length_append,
                List.length_singleton]
              congr 1
              omega
            rw [hw]
      · refine ⟨a :: out, ?_, ?_, ?_⟩
        · simp only [NoFlatStrategy.computeLoop, hslide, hper, hlenInt, hfull, if_false,
            hout]
        · simp [hlen, Nat.succ_min_succ]
        · intro i hi
          cases i with
          | zero =>
            rw [hw0]
            simp only [hfull, false_and, if_false, List.getElem?_cons_zero]
          | succ i =>
            have hi' : i < out.length := by simpa using hi
            have := helem i hi'
            simp only [List.getElem?_cons_succ, this]
            have hw : (seen ++ [sn.Close] ++ (SnapshotsAsClosings snaps).take (i + 1)).drop
                ((seen ++ [sn.Close]).length + (i + 1) - p) =
                (seen ++ (SnapshotsAsClosings (sn :: snaps)).take (i + 1 + 1)).drop
                  (seen.length + (i + 1 + 1) - p) := by
              simp only [SnapshotsAsClosings, List.map_cons, List.take_succ_cons,
                List.append_assoc, List.singleton_append, List.length_append,
                List.length_singleton]
              congr 1
              omega
            rw [hw]

theorem flatness_foldl_num (w : List ℚ) :
    ∀ (mn mx : ℚ) (tot : F64),
      (w.map F64.num).foldl flatnessStep (F64.num mn, F64.num mx, tot) =
        (F64.num (w.foldl min mn), F64.num (w.foldl max mx),
          w.foldl (fun total price => F64.add total (F64.num price)) tot) := by
  induction w with
  | nil => intro mn mx tot; simp
  | cons q w ih =>
    intro mn mx tot
    have hstep : flatnessStep (F64.num mn, F64.num mx, tot) (F64.num q) =
        (F64.num (min mn q), F64.num (max mx q), F64.add tot (F64.num q)) := by
      unfold flatnessStep
      have hmin : (if F64.lt (F64.num q) (F64.num mn) then F64.num q else F64.num mn) =
          F64.num (min mn q) := by
        by_cases h : q < mn
        · simp [F64.lt, h, min_eq_right (le_of_lt h)]
        · simp [F64.lt, h, min_eq_left (not_lt.mp h)]
      have hmax : (if F64.gt (F64.num q) (F64.num mx) then F64.num q else F64.num mx) =
          F64.num (max mx q) := by
        by_cases h : mx < q
        · simp [F64.gt, F64.lt, h, max_eq_right (le_of_lt h)]
        · simp [F64.gt, F64.lt, h, max_eq_left (not_lt.mp h)]
      simp only [hmin, hmax]
    simp only [List.map_cons, List.foldl_cons, hstep, ih]

theorem calculateFlatness_finite (n : NoFlatStrategy) (w : List ℚ) (hw : w ≠ []) :
    n.calculateFlatness (w.map F64.num) =
      some (specFlatness w, F64.lt (specFlatness w) n.FlatThreshold) := by
  cases w with
  | nil => exact absurd rfl hw
  | cons q w =>
    have hfold := flatness_foldl_num (q :: w) q q (F64.num 0)
    have hmax : (q :: w).foldl max q = windowMax (q :: w) := by
      unfold windowMax
      rw [List.foldl_eq_foldr]
      rfl
    have hmin : (q :: w).foldl min q = windowMin (q :: w) := by
      unfold windowMin
      rw [List.foldl_eq_foldr]
      rfl
    have hsum : (q :: w).foldl (fun total price => F64.add total (F64.num price))
        (F64.num 0) = windowSum (q :: w) := rfl
    rw [hmax, hmin, hsum] at hfold
    have hfold' := hfold
    simp only [List.map_cons] at hfold'
    simp only [NoFlatStrategy.calculateFlatness, List.map_cons, hfold', List.length_cons,
      List.length_map, specFlatness, windowMean]

theorem windowAt_length (closings : List F64) (p i : Nat) (hi : i < closings.length) :
    (windowAt closings p i).length = min (i + 1) p := by
  simp only [windowAt, List.length_drop, List.length_take]
  omega

theorem windowAt_getElem? (closings : List F64) (p i k : Nat) (hp : p ≤ i + 1)
    (hk : k < p) :
    (windowAt closings p i)[k]? = closings[i + 1 - p + k]? := by
  simp only [windowAt, List.getElem?_drop, List.getElem?_take]
  rw [if_pos (by omega)]

theorem foldr_max_bounds (l : List ℚ) (a : ℚ) :
    a ≤ l.foldr max a ∧ (∀ x ∈ l, x ≤ l.foldr max a) ∧
      (l.foldr max a = a ∨ l.foldr max a ∈ l) := by
  induction l with
  | nil => simp
  | cons x l ih =>
    obtain ⟨h1, h2, h3⟩ := ih
    refine ⟨le_trans h1 (le_max_right _ _), ?_, ?_⟩
    · intro y hy
      rcases List.mem_cons.mp hy with rfl | hy
      · exact le_max_left _ _
      · exact le_trans (h2 y hy) (le_max_right _ _)
    · simp only [List.foldr_cons]
      rcases max_choice x (l.foldr max a) with h | h
      · right
        rw [h]
        exact List.mem_cons_self _ _
      · rw [h]
        rcases h3 with h3 | h3
        · left; exact h3
        · right; exact List.mem_cons_of_mem _ h3

theorem foldr_min_bounds (l : List ℚ) (a : ℚ) :
    l.foldr min a ≤ a ∧ (∀ x ∈ l, l.foldr min a ≤ x) ∧
      (l.foldr min a = a ∨ l.foldr min a ∈ l) := by
  induction l with
  | nil => simp
  | cons x l ih =>
    obtain ⟨h1, h2, h3⟩ := ih
    refine ⟨le_trans (min_le_right _ _) h1, ?_, ?_⟩
    · intro y hy
      rcases List.mem_cons.mp hy with rfl | hy
      · exact min_le_left _ _
      · exact le_trans (min_le_right _ _) (h2 y hy)
    · simp only [List.foldr_cons]
      rcases min_choice x (l.foldr min a) with h | h
      · right
        rw [h]
        exact List.mem_cons_self _ _
      · rw [h]
        rcases h3 with h3 | h3
        · left; exact h3
        · right; exact List.mem_cons_of_mem _ h3

/-- The value `windowMax` is the largest element of a non-empty window and `windowMin`
the smallest. -/
theorem windowMax_windowMin_bounds (w : List ℚ) (hw : w ≠ []) :
    windowMax w ∈ w ∧ (∀ x ∈ w, x ≤ windowMax w) ∧
    windowMin w ∈ w ∧ (∀ x ∈ w, windowMin w ≤ x) := by
  cases w with
  | nil => exact absurd rfl hw
  | cons q w =>
    obtain ⟨_, hmax2, hmax3⟩ := foldr_max_bounds (q :: w) q
    obtain ⟨_, hmin2, hmin3⟩ := foldr_min_bounds (q :: w) q
    refine ⟨?_, hmax2, ?_, hmin2⟩
    · show (q :: w).foldr max q ∈ q :: w
      rcases hmax3 with h | h
      · rw [h]; exact List.mem_cons_self _ _
      · exact h
    · show (q :: w).foldr min q ∈ q :: w
      rcases hmin3 with h | h
      · rw [h]; exact List.mem_cons_self _ _
      · exact h

theorem noflat_compute_elem (n : NoFlatStrategy) (snapshots : List Snapshot) (p : Nat)
    (hp : 1 ≤ p) (hper : n.Period = p) :
    ∃ out, n.Compute snapshots = some out ∧
      out.length = min (n.InnerStrategy.Compute snapshots).length snapshots.length ∧
      ∀ i, i < out.length →
        out[i]? =
          if (windowAt (SnapshotsAsClosings snapshots) p i).length = p ∧
              (n.calculateFlatness (windowAt (SnapshotsAsClosings snapshots) p i)).map
                Prod.snd = some true
          then some Action.Hold else (n.InnerStrategy.Compute snapshots)[i]? := by
  obtain ⟨out, hout, hlen, helem⟩ :=
    noflat_loop_spec n p hp hper (n.InnerStrategy.Compute snapshots) snapshots []
  refine ⟨out, ?_, hlen, ?_⟩
  · have hnot : ¬ n.Period < 0 := by
      rw [hper]
      omega
    simpa [NoFlatStrategy.Compute, hnot] using hout
  · intro i hi
    have := helem i hi
    simp only [List.nil_append, List.length_nil, Nat.zero_add] at this
    simpa only [windowAt] using this

/-- C3. For a NoFlatStrategy with period `p >= 1`, `Compute` does not panic and emits as
many actions as the shorter of the inner action stream and the snapshot stream. At an
output position `i < p - 1` it emits the inner action of position `i`. At a position
`i >= p - 1` the window holds exactly the `p` closings at positions `i - p + 1 .. i`,
`calculateFlatness` yields a measure `m` for it, and the output is Hold when `m` is
strictly below the threshold and the inner action of position `i` otherwise. On a window
of finite prices the measure is `(max - min) / mean * 100` evaluated in `float64`
arithmetic: each operation rounds, and the mean is the rounded left-to-right sum over the
count. -/
theorem noflat_compute_spec (n : NoFlatStrategy) (snapshots : List Snapshot) (p : Nat)
    (hp : 1 ≤ p) (hper : n.Period = p) :
    ∃ out, n.Compute snapshots = some out ∧
      out.length = min (n.InnerStrategy.Compute snapshots).length snapshots.length ∧
      (∀ i, i < out.length →
        (i + 1 < p → out[i]? = (n.InnerStrategy.Compute snapshots)[i]?) ∧
        (p ≤ i + 1 →
          (windowAt (SnapshotsAsClosings snapshots) p i).length = p ∧
          (∀ k, k < p → (windowAt (SnapshotsAsClosings snapshots) p i)[k]? =
            (SnapshotsAsClosings snapshots)[i + 1 - p + k]?) ∧
          ∃ m, n.calculateFlatness (windowAt (SnapshotsAsClosings snapshots) p i) =
              some (m, F64.lt m n.FlatThreshold) ∧
            out[i]? = if F64.lt m n.FlatThreshold = true then some Action.Hold
              else (n.InnerStrategy.Compute snapshots)[i]?)) ∧
      (∀ w : List ℚ, w ≠ [] →
        n.calculateFlatness (w.map F64.num) =
          some (specFlatness w, F64.lt (specFlatness w) n.FlatThreshold)) := by
  obtain ⟨out, hout, hlen, helem⟩ := noflat_compute_elem n snapshots p hp hper
  refine ⟨out, hout, hlen, ?_, fun w hw => calculateFlatness_finite n w hw⟩
  intro i hi
  have hi' : i < (SnapshotsAsClosings snapshots).length := by
    simp only [SnapshotsAsClosings, List.length_map]
    omega
  have hwlen := windowAt_length (SnapshotsAsClosings snapshots) p i hi'
  constructor
  · intro hlt
    rw [helem i hi, if_neg]
    rintro ⟨h, _⟩
    omega
  · intro hge
    have hfull : (windowAt (SnapshotsAsClosings snapshots) p i).length = p := by omega
    have hne : windowAt (SnapshotsAsClosings snapshots) p i ≠ [] := by
      intro h
      rw [h] at hfull
      simp at hfull
      omega
    obtain ⟨m, hm⟩ := calculateFlatness_some n _ hne
    refine ⟨hfull, fun k hk => windowAt_getElem? _ p i k hge hk, m, hm, ?_⟩
    rw [helem i hi, hm]
    simp [hfull]

/-- Witness for C3: period 2, threshold 1, an inner strategy that always buys. -/
theorem noflat_compute_spec_witness :
    (1 ≤ 2 ∧ sampleNoFlat.Period = ((2 : Nat) : Int)) ∧
    ∃ out, sampleNoFlat.Compute [closeAt 10, closeAt 10, closeAt 20] = some out ∧
      out.length = min
        (sampleNoFlat.InnerStrategy.Compute [closeAt 10, closeAt 10, closeAt 20]).length
        [closeAt 10, closeAt 10, closeAt 20].length ∧
      (∀ i, i < out.length →
        (i + 1 < 2 → out[i]? =
          (sampleNoFlat.InnerStrategy.Compute [closeAt 10, closeAt 10, closeAt 20])[i]?) ∧
        (2 ≤ i + 1 →
          (windowAt (SnapshotsAsClosings [closeAt 10, closeAt 10, closeAt 20]) 2 i).length = 2 ∧
          (∀ k, k < 2 →
            (windowAt (SnapshotsAsClosings [closeAt 10, closeAt 10, closeAt 20]) 2 i)[k]? =
              (SnapshotsAsClosings [closeAt 10, closeAt 10, closeAt 20])[i + 1 - 2 + k]?) ∧
          ∃ m, sampleNoFlat.calculateFlatness
                (windowAt (SnapshotsAsClosings [closeAt 10, closeAt 10, closeAt 20]) 2 i) =
              some (m, F64.lt m sampleNoFlat.FlatThreshold) ∧
            out[i]? = if F64.lt m sampleNoFlat.FlatThreshold = true then some Action.Hold
              else (sampleNoFlat.InnerStrategy.Compute
                [closeAt 10, closeAt 10, closeAt 20])[i]?)) ∧
      (∀ w : List ℚ, w ≠ [] →
        sampleNoFlat.calculateFlatness (w.map F64.num) =
          some (specFlatness w, F64.lt (specFlatness w) sampleNoFlat.FlatThreshold)) :=
  ⟨⟨by decide, rfl⟩,
   noflat_compute_spec sampleNoFlat [closeAt 10, closeAt 10, closeAt 20] 2 (by decide) rfl⟩

theorem foldr_max_replicate (c : ℚ) (k : Nat) : (List.replicate k c).foldr max c = c := by
  induction k with
  | zero => rfl
  | succ k ih => simp [List.replicate_succ, ih]

theorem foldr_min_replicate (c : ℚ) (k : Nat) : (List.replicate k c).foldr min c = c := by
  induction k with
  | zero => rfl
  | succ k ih => simp [List.replicate_succ, ih]

theorem round_zero : F64.round 0 = F64.num 0 := by
  simp [F64.round]

theorem sub_num_self (a : ℚ) : F64.sub (F64.num a) (F64.num a) = F64.num 0 := by
  by_cases h : a = 0
  · simp [F64.sub, F64.neg, F64.add, h, round_zero]
  · simp [F64.sub, F64.neg, F64.add, h, round_zero]

theorem div_zero_div_zero (y : F64) :
    F64.div (F64.num 0) (F64.div (F64.num 0) y) = F64.nan := by
  cases y with
  | num b =>
    by_cases h : b = 0
    · simp [F64.div, F64.finite, h]
    · by_cases hb : b < 0
      · simp [F64.div, F64.finite, F64.signBit, F64.zero, h, hb]
      · simp [F64.div, F64.finite, F64.signBit, F64.zero, h, hb]
  | nzero => simp [F64.div, F64.finite]
  | pinf => simp [F64.div, F64.finite, F64.signBit, F64.zero]
  | ninf => simp [F64.div, F64.finite, F64.signBit, F64.zero]
  | nan => simp [F64.div]

theorem lt_nzero_eq (θ : F64) : F64.lt F64.nzero θ = F64.lt (F64.num 0) θ := by
  cases θ <;> simp [F64.lt]

theorem calculateFlatness_zero (n : NoFlatStrategy) :
    n.calculateFlatness [F64.num 0] = some (F64.nan, false) := by
  have hstep : flatnessStep (F64.num 0, F64.num 0, F64.num 0) (F64.num 0) =
      (F64.num 0, F64.num 0, F64.num 0) := by
    simp [flatnessStep, F64.lt, F64.gt, F64.add, round_zero]
  simp only [NoFlatStrategy.calculateFlatness, List.foldl_cons, List.foldl_nil, hstep,
    sub_num_self, div_zero_div_zero]
  simp [F64.mul, F64.lt]

/-- A window of `p >= 1` copies of one finite price whose `float64` mean is a finite
non-zero value has a zero measure and is flat under every threshold above 0. -/
theorem calculateFlatness_const (n : NoFlatStrategy) (p : Nat) (hp : 1 ≤ p) (c a : ℚ)
    (ha : a ≠ 0) (hmean : windowMean (List.replicate p c) = F64.num a)
    (hθ : F64.lt (F64.num 0) n.FlatThreshold = true) :
    n.calculateFlatness (List.replicate p (F64.num c)) =
      some (F64.zero (decide (a < 0)), true) := by
  have hne : List.replicate p c ≠ [] := by
    cases p with
    | zero => omega
    | succ k => simp [List.replicate_succ]
  have hmap : (List.replicate p c).map F64.num = List.replicate p (F64.num c) := by simp
  have hhead : (List.replicate p c).headD 0 = c := by
    cases p with
    | zero => omega
    | succ k => simp [List.replicate_succ]
  have hmax : windowMax (List.replicate p c) = c := by
    rw [windowMax, hhead, foldr_max_replicate]
  have hmin : windowMin (List.replicate p c) = c := by
    rw [windowMin, hhead, foldr_min_replicate]
  have hspec : specFlatness (List.replicate p c) = F64.zero (decide (a < 0)) := by
    rw [specFlatness, hmax, hmin, hmean, sub_num_self]
    by_cases hneg : a < 0
    · simp [F64.div, F64.mul, F64.finite, F64.signBit, F64.zero, ha, hneg]
    · simp [F64.div, F64.mul, F64.finite, F64.signBit, F64.zero, ha, hneg]
  have hlt : F64.lt (F64.zero (decide (a < 0))) n.FlatThreshold = true := by
    by_cases hneg : a < 0
    · simp only [F64.zero, hneg, decide_True, if_true, lt_nzero_eq, hθ]
    · simp only [F64.zero, hneg, decide_False, Bool.false_eq_true, if_false, hθ]
  rw [← hmap, calculateFlatness_finite n _ hne, hspec, hlt]

/-- C5 (the case the code misses). On a window of one closing price 0 with threshold 1,
`calculateFlatness` divides zero by the zero mean: the measure is NaN, `isFlat` is false,
and `Compute` passes the inner Buy through instead of emitting Hold. -/
theorem noflat_zero_window_not_flat :
    sampleNoFlatOne.calculateFlatness [F64.num 0] = some (F64.nan, false) ∧
    sampleNoFlatOne.Compute [closeAt 0] = some [Action.Buy] := by
  constructor
  · exact calculateFlatness_zero sampleNoFlatOne
  · simp [NoFlatStrategy.Compute, NoFlatStrategy.computeLoop, NoFlatStrategy.slide,
      calculateFlatness_zero, sampleNoFlatOne, always, closeAt]

/-- On a warmed-up window of `p` copies of one finite price whose `float64` mean is a
finite non-zero value, with a threshold above 0, `Compute` emits Hold whatever the inner
action is. -/
theorem noflat_const_window_hold (n : NoFlatStrategy) (snapshots : List Snapshot) (p : Nat)
    (hp : 1 ≤ p) (hper : n.Period = p) (c a : ℚ) (ha : a ≠ 0)
    (hmean : windowMean (List.replicate p c) = F64.num a)
    (hθ : F64.lt (F64.num 0) n.FlatThreshold = true) (i : Nat)
    (hi : i < min (n.InnerStrategy.Compute snapshots).length snapshots.length)
    (hw : windowAt (SnapshotsAsClosings snapshots) p i = List.replicate p (F64.num c)) :
    ∃ out, n.Compute snapshots = some out ∧ out[i]? = some Action.Hold := by
  obtain ⟨out, hout, hlen, helem⟩ := noflat_compute_elem n snapshots p hp hper
  refine ⟨out, hout, ?_⟩
  rw [helem i (by omega), hw, calculateFlatness_const n p hp c a ha hmean hθ]
  simp

theorem calculateFlatness_congr (n n' : NoFlatStrategy)
    (h : n.FlatThreshold = n'.FlatThreshold) (w : List F64) :
    n.calculateFlatness w = n'.calculateFlatness w := by
  cases w with
  | nil => rfl
  | cons a w => simp only [NoFlatStrategy.calculateFlatness, h]

theorem and_one_to_one (a a' : AndStrategy) (snapshots : List Snapshot) (fuel : Nat)
    (hne : a.Strategies ≠ []) (hne' : a'.Strategies ≠ [])
    (hone : ∀ s ∈ a.Strategies, (s.Compute snapshots).length = snapshots.length)
    (hone' : ∀ s ∈ a'.Strategies, (s.Compute snapshots).length = snapshots.length)
    (hfuel : snapshots.length < fuel) :
    ∃ out out', a.Compute fuel snapshots = (out, true) ∧
      a'.Compute fuel snapshots = (out', true) ∧
      out.length = snapshots.length ∧ out'.length = snapshots.length ∧
      ∀ i : Nat, a.Strategies.map (fun s => (s.Compute snapshots)[i]?) =
            a'.Strategies.map (fun s => (s.Compute snapshots)[i]?) →
          out[i]? = out'[i]? := by
  have key : ∀ (b : AndStrategy), b.Strategies ≠ [] →
      (∀ s ∈ b.Strategies, (s.Compute snapshots).length = snapshots.length) →
      ∃ out, b.Compute fuel snapshots = (out, true) ∧ out.length = snapshots.length ∧
        ∀ i, i < out.length → ∀ x, (x = Action.Sell ∨ x = Action.Buy) →
          (out[i]? = some x ↔
            ∀ o ∈ b.Strategies.map (fun s => (s.Compute snapshots)[i]?), o = some x) := by
    intro b hb hlen
    obtain ⟨s0, hs0⟩ := List.exists_mem_of_ne_nil _ hb
    have hsrc : ∃ t ∈ ActionSources b.Strategies snapshots, t.length < fuel :=
      ⟨s0.Compute snapshots, List.mem_map_of_mem _ hs0, by rw [hlen s0 hs0]; exact hfuel⟩
    obtain ⟨out, hout, _, ⟨t, ht, hteq⟩, helem⟩ :=
      computeLoop_spec fuel (ActionSources b.Strategies snapshots) hsrc
    have hsl : (ActionSources b.Strategies snapshots).length = b.Strategies.length := by
      simp [ActionSources]
    rw [hsl] at hout
    refine ⟨out, hout, ?_, ?_⟩
    · obtain ⟨s, hs, rfl⟩ := List.mem_map.mp ht
      rw [hteq, hlen s hs]
    · intro i hi x hx
      obtain ⟨h1, h2⟩ := helem i hi
      have hconv : (∀ t ∈ ActionSources b.Strategies snapshots, t[i]? = some x) ↔
          ∀ o ∈ b.Strategies.map (fun s => (s.Compute snapshots)[i]?), o = some x := by
        simp [ActionSources]
      rw [← hconv]
      rcases hx with rfl | rfl
      · exact h1
      · exact h2
  obtain ⟨out, hout, hlen, helem⟩ := key a hne hone
  obtain ⟨out', hout', hlen', helem'⟩ := key a' hne' hone'
  refine ⟨out, out', hout, hout', hlen, hlen', ?_⟩
  intro i hcol
  by_cases hi : i < snapshots.length
  · have hi1 : i < out.length := by omega
    have hi2 : i < out'.length := by omega
    have hS := helem i hi1 Action.Sell (Or.inl rfl)
    have hB := helem i hi1 Action.Buy (Or.inr rfl)
    have hS' := helem' i hi2 Action.Sell (Or.inl rfl)
    have hB' := helem' i hi2 Action.Buy (Or.inr rfl)
    rw [hcol, ← hS'] at hS
    rw [hcol, ← hB'] at hB
    rw [List.getElem?_eq_getElem hi1, List.getElem?_eq_getElem hi2] at hS hB ⊢
    simp only [Option.some.injEq] at hS hB ⊢
    generalize out[i] = x at hS hB ⊢
    generalize out'[i] = y at hS hB ⊢
    cases x with
    | Sell => exact (hS.mp rfl).symm
    | Buy => exact (hB.mp rfl).symm
    | Hold =>
      cases y with
      | Sell => exact absurd (hS.mpr rfl) (by decide)
      | Buy => exact absurd (hB.mpr rfl) (by decide)
      | Hold => rfl
  · rw [List.getElem?_eq_none (by omega), List.getElem?_eq_none (by omega)]

theorem delay_one_to_one (d d' : DelayStrategy) (snapshots : List Snapshot)
    (hper : d.Period = d'.Period)
    (hone : (d.InnertStrategy.Compute snapshots).length = snapshots.length)
    (hone' : (d'.InnertStrategy.Compute snapshots).length = snapshots.length) :
    (d.Compute snapshots).length = snapshots.length ∧
    (d'.Compute snapshots).length = snapshots.length ∧
    ∀ i : Nat,
      (d.InnertStrategy.Compute snapshots)[i]? = (d'.InnertStrategy.Compute snapshots)[i]? →
      (d.Compute snapshots)[i]? = (d'.Compute snapshots)[i]? := by
  have key : ∀ (b : DelayStrategy),
      (b.InnertStrategy.Compute snapshots).length = snapshots.length →
      (b.Compute snapshots).length = snapshots.length ∧
      ∀ i, i < snapshots.length → (b.Compute snapshots)[i]? =
        if ((i + 1 : Nat) : Int) ≤ b.Period then some Action.Hold
        else (b.InnertStrategy.Compute snapshots)[i]? := by
    intro b hb
    have hlen : (b.Compute snapshots).length = snapshots.length := by
      simp [DelayStrategy.Compute, operateWith_length, SnapshotsAsClosings, hb]
    refine ⟨hlen, ?_⟩
    intro i hi
    have hi' : i < min (b.InnertStrategy.Compute snapshots).length
        (SnapshotsAsClosings snapshots).length := by
      simpa [SnapshotsAsClosings, hb] using hi
    have := delay_getElem? b _ _ 0 i hi'
    simpa [DelayStrategy.Compute] using this
  obtain ⟨hlen, helem⟩ := key d hone
  obtain ⟨hlen', helem'⟩ := key d' hone'
  refine ⟨hlen, hlen', ?_⟩
  intro i hinner
  by_cases hi : i < snapshots.length
  · rw [helem i hi, helem' i hi, hper, hinner]
  · rw [List.getElem?_eq_none (by omega), List.getElem?_eq_none (by omega)]

theorem noflat_one_to_one (n n' : NoFlatStrategy) (snapshots : List Snapshot) (p : Nat)
    (hp : 1 ≤ p) (hper : n.Period = p) (hper' : n'.Period = p)
    (hθ : n.FlatThreshold = n'.FlatThreshold)
    (hone : (n.InnerStrategy.Compute snapshots).length = snapshots.length)
    (hone' : (n'.InnerStrategy.Compute snapshots).length = snapshots.length) :
    ∃ out out', n.Compute snapshots = some out ∧ n'.Compute snapshots = some out' ∧
      out.length = snapshots.length ∧ out'.length = snapshots.length ∧
      ∀ i : Nat,
        (n.InnerStrategy.Compute snapshots)[i]? = (n'.InnerStrategy.Compute snapshots)[i]? →
        out[i]? = out'[i]? := by
  obtain ⟨out, hout, hlen, helem⟩ := noflat_compute_elem n snapshots p hp hper
  obtain ⟨out', hout', hlen', helem'⟩ := noflat_compute_elem n' snapshots p hp hper'
  rw [hone, Nat.min_self] at hlen
  rw [hone', Nat.min_self] at hlen'
  refine ⟨out, out', hout, hout', hlen, hlen', ?_⟩
  intro i hinner
  by_cases hi : i < snapshots.length
  · rw [helem i (by omega), helem' i (by omega), hinner,
      calculateFlatness_congr n n' hθ]
  · rw [List.getElem?_eq_none (by omega), List.getElem?_eq_none (by omega)]

/-! ## One action per snapshot -/

/-- C4 (as stated, refuted). A NoFlatStrategy of period 0 whose inner strategy emits one
action per snapshot does not emit one action for a one-snapshot input: the window is
trimmed to length 0, which equals the period, and `calculateFlatness` panics on
`closingWindow[0]`. -/
theorem noflat_period_zero_panics :
    (∀ snapshots, (sampleNoFlatZero.InnerStrategy.Compute snapshots).length =
      snapshots.length) ∧
    sampleNoFlatZero.Compute [closeAt 1] = none ∧
    ¬ ∃ out, sampleNoFlatZero.Compute [closeAt 1] = some out ∧
      out.length = [closeAt 1].length := by
  have h : sampleNoFlatZero.Compute [closeAt 1] = none := by
    simp [NoFlatStrategy.Compute, NoFlatStrategy.computeLoop, NoFlatStrategy.slide,
      NoFlatStrategy.calculateFlatness, sampleNoFlatZero, always, closeAt]
  refine ⟨?_, h, ?_⟩
  · intro snapshots
    simp [sampleNoFlatZero, always]
  · rintro ⟨out, hout, _⟩
    rw [h] at hout
    exact absurd hout (by simp)

/-- C4 (amended). For an AndStrategy with at least one member (and more loop iterations
than snapshots), a DelayStrategy, and a NoFlatStrategy with period `p >= 1`, whose inner
strategies emit one action per snapshot: `Compute` emits exactly as many actions as there
are snapshots, and the action at index `i` is the same for any two choices of inner
strategies whose actions at index `i` coincide. -/
theorem composite_one_to_one :
    (∀ (a a' : AndStrategy) (snapshots : List Snapshot) (fuel : Nat),
      a.Strategies ≠ [] → a'.Strategies ≠ [] →
      (∀ s ∈ a.Strategies, (s.Compute snapshots).length = snapshots.length) →
      (∀ s ∈ a'.Strategies, (s.Compute snapshots).length = snapshots.length) →
      snapshots.length < fuel →
      ∃ out out', a.Compute fuel snapshots = (out, true) ∧
        a'.Compute fuel snapshots = (out', true) ∧
        out.length = snapshots.length ∧ out'.length = snapshots.length ∧
        ∀ i : Nat, a.Strategies.map (fun s => (s.Compute snapshots)[i]?) =
              a'.Strategies.map (fun s => (s.Compute snapshots)[i]?) →
            out[i]? = out'[i]?) ∧
    (∀ (d d' : DelayStrategy) (snapshots : List Snapshot),
      d.Period = d'.Period →
      (d.InnertStrategy.Compute snapshots).length = snapshots.length →
      (d'.InnertStrategy.Compute snapshots).length = snapshots.length →
      (d.Compute snapshots).length = snapshots.length ∧
      (d'.Compute snapshots).length = snapshots.length ∧
      ∀ i : Nat,
        (d.InnertStrategy.Compute snapshots)[i]? =
          (d'.InnertStrategy.Compute snapshots)[i]? →
        (d.Compute snapshots)[i]? = (d'.Compute snapshots)[i]?) ∧
    (∀ (n n' : NoFlatStrategy) (snapshots : List Snapshot) (p : Nat),
      1 ≤ p → n.Period = p → n'.Period = p →
      n.FlatThreshold = n'.FlatThreshold →
      (n.InnerStrategy.Compute snapshots).length = snapshots.length →
      (n'.InnerStrategy.Compute snapshots).length = snapshots.length →
      ∃ out out', n.Compute snapshots = some out ∧ n'.Compute snapshots = some out' ∧
        out.length = snapshots.length ∧ out'.length = snapshots.length ∧
        ∀ i : Nat,
          (n.InnerStrategy.Compute snapshots)[i]? =
            (n'.InnerStrategy.Compute snapshots)[i]? →
          out[i]? = out'[i]?) :=
  ⟨and_one_to_one, delay_one_to_one, noflat_one_to_one⟩

/-- Witness for C4: an AND group of two members, a delay of period 1 and a flatness
decorator of period 2, each over a strategy that emits one action per snapshot, on two
snapshots. -/
theorem composite_one_to_one_witness :
    (sampleAndAligned.Strategies ≠ [] ∧
      (∀ s ∈ sampleAndAligned.Strategies,
        (s.Compute [closeAt 1, closeAt 2]).length = [closeAt 1, closeAt 2].length) ∧
      [closeAt 1, closeAt 2].length < 3 ∧
      ∃ out out', sampleAndAligned.Compute 3 [closeAt 1, closeAt 2] = (out, true) ∧
        sampleAndAligned.Compute 3 [closeAt 1, closeAt 2] = (out', true) ∧
        out.length = [closeAt 1, closeAt 2].length ∧
        out'.length = [closeAt 1, closeAt 2].length ∧
        ∀ i : Nat,
          sampleAndAligned.Strategies.map
              (fun s => (s.Compute [closeAt 1, closeAt 2])[i]?) =
            sampleAndAligned.Strategies.map
              (fun s => (s.Compute [closeAt 1, closeAt 2])[i]?) →
          out[i]? = out'[i]?) ∧
    ((sampleDelay.InnertStrategy.Compute [closeAt 1, closeAt 2]).length =
        [closeAt 1, closeAt 2].length ∧
      (sampleDelay.Compute [closeAt 1, closeAt 2]).length = [closeAt 1, closeAt 2].length) ∧
    ((1 ≤ 2 ∧ sampleNoFlat.Period = ((2 : Nat) : Int) ∧
      (sampleNoFlat.InnerStrategy.Compute [closeAt 1, closeAt 2]).length =
        [closeAt 1, closeAt 2].length) ∧
      ∃ out out', sampleNoFlat.Compute [closeAt 1, closeAt 2] = some out ∧
        sampleNoFlat.Compute [closeAt 1, closeAt 2] = some out' ∧
        out.length = [closeAt 1, closeAt 2].length ∧
        out'.length = [closeAt 1, closeAt 2].length ∧
        ∀ i : Nat,
          (sampleNoFlat.InnerStrategy.Compute [closeAt 1, closeAt 2])[i]? =
            (sampleNoFlat.InnerStrategy.Compute [closeAt 1, closeAt 2])[i]? →
          out[i]? = out'[i]?) :=
  ⟨⟨by simp [sampleAndAligned], by simp [sampleAndAligned, always], by decide,
      composite_one_to_one.1 sampleAndAligned sampleAndAligned [closeAt 1, closeAt 2] 3
        (by simp [sampleAndAligned]) (by simp [sampleAndAligned])
        (by simp [sampleAndAligned, always]) (by simp [sampleAndAligned, always])
        (by decide)⟩,
   ⟨by simp [sampleDelay, always],
      (composite_one_to_one.2.1 sampleDelay sampleDelay [closeAt 1, closeAt 2] rfl
        (by simp [sampleDelay, always]) (by simp [sampleDelay, always])).1⟩,
   ⟨⟨by decide, rfl, by simp [sampleNoFlat, always]⟩,
      composite_one_to_one.2.2 sampleNoFlat sampleNoFlat [closeAt 1, closeAt 2] 2
        (by decide) rfl rfl rfl (by simp [sampleNoFlat, always])
        (by simp [sampleNoFlat, always])⟩⟩

/-! ## AllAndStrategies and AllAndStrategiesWith -/

theorem foldl_append_flatMap {α β : Type} (f : α → List β) :
    ∀ (l : List α) (init : List β),
      l.foldl (fun acc a => acc ++ f a) init = init ++ l.flatMap f := by
  intro l
  induction l with
  | nil => intro init; simp
  | cons a l ih => intro init; simp [ih, List.append_assoc]

/-- The pairs built for the first member at position `i`: the body of the outer loop of
`AllAndStrategies` as a list. -/
theorem allAnd_inner_eq (strategies : List Strategy) (first : Strategy) (l : List Nat)
    (init : List AndStrategy) :
    l.foldl
        (fun andStrategies j =>
          match strategies[j]? with
          | none => andStrategies
          | some second => andStrategies ++ [newPair first second])
        init =
      init ++ l.flatMap (fun j =>
        match strategies[j]? with
        | none => []
        | some second => [newPair first second]) := by
  rw [← foldl_append_flatMap]
  congr 1
  funext acc j
  cases strategies[j]? <;> simp

theorem allAnd_eq_flatMap (strategies : List Strategy) :
    AllAndStrategies strategies =
      (List.range strategies.length).flatMap (fun i =>
        match strategies[i]? with
        | none => []
        | some first =>
          (List.range' (i + 1) (strategies.length - (i + 1))).flatMap (fun j =>
            match strategies[j]? with
            | none => []
            | some second => [newPair first second])) := by
  unfold AllAndStrategies
  have hbody : (fun (andStrategies : List AndStrategy) (i : Nat) =>
      match strategies[i]? with
      | none => andStrategies
      | some first =>
        (List.range' (i + 1) (strategies.length - (i + 1))).foldl
          (fun andStrategies j =>
            match strategies[j]? with
            | none => andStrategies
            | some second => andStrategies ++ [newPair first second])
          andStrategies) =
      fun andStrategies i => andStrategies ++
        (match strategies[i]? with
        | none => []
        | some first =>
          (List.range' (i + 1) (strategies.length - (i + 1))).flatMap (fun j =>
            match strategies[j]? with
            | none => []
            | some second => [newPair first second])) := by
    funext acc i
    cases strategies[i]? with
    | none => simp
    | some first => simp only [allAnd_inner_eq]
  rw [hbody, foldl_append_flatMap]
  simp

theorem range_filter_lt (i : Nat) :
    ∀ k, (List.range k).filter (fun j => decide (i < j)) = List.range' (i + 1) (k - (i + 1)) := by
  intro k
  induction k with
  | zero => simp
  | succ k ih =>
    rw [List.range_succ, List.filter_append, ih]
    by_cases h : i < k
    · have hk : k + 1 - (i + 1) = (k - (i + 1)) + 1 := by omega
      have hlast : i + 1 + (k - (i + 1)) = k := by omega
      rw [hk, List.range'_1_concat, hlast]
      simp [h]
    · have h0 : k - (i + 1) = 0 := by omega
      have h1 : k + 1 - (i + 1) = 0 := by omega
      rw [h0, h1]
      simp [h]

theorem lexPairs_eq_flatMap {γ : Type} (k : Nat) (h : Nat × Nat → γ) :
    (((List.range k).product (List.range k)).filter
        (fun ij => decide (ij.1 < ij.2))).map h =
      (List.range k).flatMap (fun i =>
        (List.range' (i + 1) (k - (i + 1))).map (fun j => h (i, j))) := by
  unfold List.product
  rw [List.filter_flatMap, List.map_flatMap]
  apply List.flatMap_congr
  intro i _
  rw [List.filter_map, List.map_map]
  have : ((fun ij : Nat × Nat => decide (ij.1 < ij.2)) ∘ Prod.mk i) =
      fun j => decide (i < j) := by
    funext j
    rfl
  rw [this, range_filter_lt]
  rfl

theorem sum_range_sub (k : Nat) :
    ((List.range k).map (fun i => k - (i + 1))).sum * 2 = k * (k - 1) := by
  induction k with
  | zero => simp
  | succ k ih =>
    have hshift : (List.range k).map ((fun i => k + 1 - (i + 1)) ∘ Nat.succ) =
        (List.range k).map (fun i => k - (i + 1)) := by
      apply List.map_congr_left
      intro i _
      simp
    rw [List.range_succ_eq_map, List.map_cons, List.map_map, hshift, List.sum_cons,
      Nat.add_mul, ih]
    cases k with
    | zero => simp
    | succ m =>
      simp only [Nat.add_sub_cancel]
      ring

theorem allAnd_members_flatMap (strategies : List Strategy) :
    (AllAndStrategies strategies).map (fun a => a.Strategies.map some) =
      (List.range strategies.length).flatMap (fun i =>
        (List.range' (i + 1) (strategies.length - (i + 1))).map
          (fun j => [strategies[i]?, strategies[j]?])) := by
  rw [allAnd_eq_flatMap, List.map_flatMap]
  apply List.flatMap_congr
  intro i hi
  have hik : i < strategies.length := List.mem_range.mp hi
  rw [List.getElem?_eq_getElem hik]
  simp only
  rw [List.map_flatMap, List.map_eq_flatMap]
  apply List.flatMap_congr
  intro j hj
  have hjk : j < strategies.length := by
    have := List.mem_range'_1.mp hj
    omega
  rw [List.getElem?_eq_getElem hjk]
  simp [newPair, NewAndStrategy]

/-- C7. `AllAndStrategies` over `k` strategies returns one AndStrategy for each pair of
positions `i < j`, in lexicographic order of `(i, j)`, whose member list is exactly
`[strategies[i], strategies[j]]`; the result has `k * (k - 1) / 2` elements. -/
theorem allAnd_pairs (strategies : List Strategy) :
    (AllAndStrategies strategies).map (fun a => a.Strategies.map some) =
      (((List.range strategies.length).product (List.range strategies.length)).filter
          (fun ij => decide (ij.1 < ij.2))).map
        (fun ij => [strategies[ij.1]?, strategies[ij.2]?]) ∧
    (AllAndStrategies strategies).length =
      strategies.length * (strategies.length - 1) / 2 := by
  have hmem := allAnd_members_flatMap strategies
  constructor
  · rw [lexPairs_eq_flatMap, hmem]
  · have hlen := congrArg List.length hmem
    rw [List.length_map, List.length_flatMap] at hlen
    have hfun : (List.length ∘ fun i =>
        (List.range' (i + 1) (strategies.length - (i + 1))).map
          (fun j => [strategies[i]?, strategies[j]?])) =
        fun i => strategies.length - (i + 1) := by
      funext i
      simp
    rw [hfun] at hlen
    rw [hlen]
    exact (Nat.div_eq_of_eq_mul_left (by decide) (sum_range_sub strategies.length).symm).symm

theorem allAndWith_step_none (first : Strategy) :
    ∀ (l : List Strategy), l.foldl (AllAndStrategiesWith.step first) none = none := by
  intro l
  induction l with
  | nil => rfl
  | cons x l ih => simpa [AllAndStrategiesWith.step] using ih

theorem allAndWith_step_some (first second : Strategy)
    (acc : List (Strategy ⊕ AndStrategy)) (h : first.same second ≠ none) :
    AllAndStrategiesWith.step first (some acc) second =
      some (acc ++ [pairElement first second]) := by
  unfold AllAndStrategiesWith.step pairElement
  cases hs : first.same second with
  | none => exact absurd hs h
  | some b => cases b <;> simp [newPair, NewAndStrategy]

theorem allAndWith_inner_ok (first : Strategy) :
    ∀ (l : List Strategy) (acc : List (Strategy ⊕ AndStrategy)),
      (∀ second ∈ l, first.same second ≠ none) →
      AllAndStrategiesWith.inner l (some acc) first =
        some (acc ++ l.map (pairElement first)) := by
  intro l
  induction l with
  | nil => intro acc _; simp [AllAndStrategiesWith.inner]
  | cons x l ih =>
    intro acc h
    have hx := h x (List.mem_cons_self _ _)
    have hl : ∀ second ∈ l, first.same second ≠ none :=
      fun second hs => h second (List.mem_cons_of_mem _ hs)
    have := ih (acc ++ [pairElement first x]) hl
    unfold AllAndStrategiesWith.inner at this ⊢
    rw [List.foldl_cons, allAndWith_step_some first x acc hx, this]
    simp

theorem allAndWith_inner_panic (first : Strategy) :
    ∀ (l : List Strategy) (acc : Option (List (Strategy ⊕ AndStrategy))),
      (∃ second ∈ l, first.same second = none) →
      AllAndStrategiesWith.inner l acc first = none := by
  intro l
  induction l with
  | nil => intro acc h; simp at h
  | cons x l ih =>
    intro acc h
    unfold AllAndStrategiesWith.inner at ih ⊢
    rw [List.foldl_cons]
    by_cases hx : first.same x = none
    · have hstep : AllAndStrategiesWith.step first acc x = none := by
        unfold AllAndStrategiesWith.step
        cases acc with
        | none => rfl
        | some a => simp [hx]
      rw [hstep, allAndWith_step_none]
    · apply ih
      obtain ⟨second, hmem, hs⟩ := h
      rcases List.mem_cons.mp hmem with rfl | hmem
      · exact absurd hs hx
      · exact ⟨second, hmem, hs⟩

theorem allAndWith_inner_none (strategies2 : List Strategy) :
    ∀ (l : List Strategy), l.foldl (AllAndStrategiesWith.inner strategies2) none = none := by
  intro l
  induction l with
  | nil => rfl
  | cons x l ih =>
    rw [List.foldl_cons]
    have : AllAndStrategiesWith.inner strategies2 none x = none := by
      unfold AllAndStrategiesWith.inner
      exact allAndWith_step_none x strategies2
    rw [this, ih]

theorem allAndWith_outer_ok (strategies2 : List Strategy) :
    ∀ (l : List Strategy) (acc : List (Strategy ⊕ AndStrategy)),
      (∀ first ∈ l, ∀ second ∈ strategies2, first.same second ≠ none) →
      l.foldl (AllAndStrategiesWith.inner strategies2) (some acc) =
        some (acc ++ l.flatMap (fun first => strategies2.map (pairElement first))) := by
  intro l
  induction l with
  | nil => intro acc _; simp
  | cons x l ih =>
    intro acc h
    have hx := h x (List.mem_cons_self _ _)
    have hl : ∀ first ∈ l, ∀ second ∈ strategies2, first.same second ≠ none :=
      fun first hf => h first (List.mem_cons_of_mem _ hf)
    rw [List.foldl_cons, allAndWith_inner_ok x strategies2 acc hx, ih _ hl]
    simp

theorem allAndWith_outer_panic (strategies2 : List Strategy) :
    ∀ (l : List Strategy) (acc : Option (List (Strategy ⊕ AndStrategy))),
      (∃ first ∈ l, ∃ second ∈ strategies2, first.same second = none) →
      l.foldl (AllAndStrategiesWith.inner strategies2) acc = none := by
  intro l
  induction l with
  | nil => intro acc h; simp at h
  | cons x l ih =>
    intro acc h
    rw [List.foldl_cons]
    by_cases hx : ∃ second ∈ strategies2, x.same second = none
    · rw [allAndWith_inner_panic x strategies2 acc hx, allAndWith_inner_none]
    · apply ih
      obtain ⟨first, hmem, hs⟩ := h
      rcases List.mem_cons.mp hmem with rfl | hmem
      · exact absurd hs hx
      · exact ⟨first, hmem, hs⟩

theorem allAndWith_none_of_panic (strategies1 strategies2 : List Strategy)
    (h : ∃ first ∈ strategies1, ∃ second ∈ strategies2, first.same second = none) :
    AllAndStrategiesWith strategies1 strategies2 = none :=
  allAndWith_outer_panic strategies2 strategies1 (some []) h

theorem allAndWith_eq_product (strategies1 strategies2 : List Strategy)
    (h : ∀ first ∈ strategies1, ∀ second ∈ strategies2, first.same second ≠ none) :
    AllAndStrategiesWith strategies1 strategies2 =
      some ((strategies1.product strategies2).map
        (fun fs => pairElement fs.1 fs.2)) := by
  unfold AllAndStrategiesWith
  rw [allAndWith_outer_ok strategies2 strategies1 [] h]
  unfold List.product
  rw [List.map_flatMap, List.nil_append]
  congr 1
  apply List.flatMap_congr
  intro first _
  rw [List.map_map]
  rfl

/-- C8 (as stated, refuted). For a strategy value `x` whose dynamic type is not
comparable, `AllAndStrategiesWith([x], [x])` panics in `first == second`: it returns no
list, so not the `1 * 1` elements the claim promises. -/
theorem allAndWith_panics_on_uncomparable :
    AllAndStrategiesWith [sampleUncomparable] [sampleUncomparable] = none ∧
    ¬ ∃ out, AllAndStrategiesWith [sampleUncomparable] [sampleUncomparable] = some out ∧
      out.length = [sampleUncomparable].length * [sampleUncomparable].length := by
  have h : AllAndStrategiesWith [sampleUncomparable] [sampleUncomparable] = none := by
    simp [AllAndStrategiesWith, AllAndStrategiesWith.inner, AllAndStrategiesWith.step,
      Strategy.same, sampleUncomparable]
  refine ⟨h, ?_⟩
  rintro ⟨out, hout, _⟩
  rw [h] at hout
  exact absurd hout (by simp)

/-- C8 (amended). `AllAndStrategiesWith(s1, s2)` panics exactly when the comparison
`first == second` panics for some `first` in `s1` and `second` in `s2`, as it does for two
values of one dynamic type that is not comparable. Whenever it returns, it returns one
element for every pair `(first in s1, second in s2)`, in row-major order, so
`len(s1) * len(s2)` elements; the element for a pair is `first` itself when
`first == second`, and otherwise an AndStrategy whose member list is exactly
`[first, second]`. -/
theorem allAndWith_pairs (strategies1 strategies2 : List Strategy) :
    (AllAndStrategiesWith strategies1 strategies2 = none ↔
      ∃ first ∈ strategies1, ∃ second ∈ strategies2, first.same second = none) ∧
    (∀ out, AllAndStrategiesWith strategies1 strategies2 = some out →
      out = (strategies1.product strategies2).map (fun fs =>
        if fs.1.same fs.2 = some true then Sum.inl fs.1
        else Sum.inr
          { Strategies := [fs.1, fs.2], name := fs.1.Name ++ " and " ++ fs.2.Name }) ∧
      out.length = strategies1.length * strategies2.length) := by
  by_cases hp : ∃ first ∈ strategies1, ∃ second ∈ strategies2, first.same second = none
  · have hnone : AllAndStrategiesWith strategies1 strategies2 = none :=
      allAndWith_none_of_panic strategies1 strategies2 hp
    refine ⟨⟨fun _ => hp, fun _ => hnone⟩, ?_⟩
    intro out hout
    rw [hnone] at hout
    exact absurd hout (by simp)
  · have hok : ∀ first ∈ strategies1, ∀ second ∈ strategies2, first.same second ≠ none := by
      intro first hf second hs hsame
      exact hp ⟨first, hf, second, hs, hsame⟩
    have hsome := allAndWith_eq_product strategies1 strategies2 hok
    refine ⟨⟨fun hnone => ?_, fun h => absurd h hp⟩, ?_⟩
    · rw [hsome] at hnone
      exact absurd hnone (by simp)
    · intro out hout
      rw [hsome] at hout
      have hout' := (Option.some.inj hout).symm
      refine ⟨hout', ?_⟩
      rw [hout', List.length_map]
      exact List.length_product _ _

/-- C6 (as stated, refuted). For two strategies named `a` and `b`, the AND combination
returned by `AllAndStrategies` and by `AllAndStrategiesWith` is named `a and b`, not
`AND(a,b)`. -/
theorem and_pair_name_not_AND :
    (AllAndStrategies [canned 1 "a" [], canned 2 "b" []]).map AndStrategy.Name =
      ["a and b"] ∧
    (AllAndStrategiesWith [canned 1 "a" []] [canned 2 "b" []]).map
      (List.map (Sum.elim Strategy.Name AndStrategy.Name)) = some ["a and b"] ∧
    "a and b" ≠ "AND(a,b)" := by
  refine ⟨?_, ?_, by decide⟩
  · decide
  · decide

/-- C6 (amended). Every AND combination returned by `AllAndStrategies` and by
`AllAndStrategiesWith` for a pair of members `first`, `second` has the member list
`[first, second]` and the name `first.Name() + " and " + second.Name()`. -/
theorem and_pair_names :
    (∀ (strategies : List Strategy) (a : AndStrategy), a ∈ AllAndStrategies strategies →
      ∃ first second, first ∈ strategies ∧ second ∈ strategies ∧
        a.Strategies = [first, second] ∧
        a.Name = first.Name ++ " and " ++ second.Name) ∧
    (∀ (strategies1 strategies2 : List Strategy) (out : List (Strategy ⊕ AndStrategy))
      (a : AndStrategy),
      AllAndStrategiesWith strategies1 strategies2 = some out → Sum.inr a ∈ out →
      ∃ first second, first ∈ strategies1 ∧ second ∈ strategies2 ∧
        a.Strategies = [first, second] ∧
        a.Name = first.Name ++ " and " ++ second.Name) := by
  constructor
  · intro strategies a ha
    rw [allAnd_eq_flatMap, List.mem_flatMap] at ha
    obtain ⟨i, _, ha⟩ := ha
    cases hfi : strategies[i]? with
    | none => simp [hfi] at ha
    | some first =>
      simp only [hfi, List.mem_flatMap] at ha
      obtain ⟨j, _, ha⟩ := ha
      cases hsj : strategies[j]? with
      | none => simp [hsj] at ha
      | some second =>
        simp only [hsj, List.mem_singleton] at ha
        refine ⟨first, second, List.getElem?_mem hfi, List.getElem?_mem hsj, ?_, ?_⟩
        · rw [ha]; rfl
        · rw [ha]; rfl
  · intro strategies1 strategies2 out a hout ha
    by_cases hp : ∃ first ∈ strategies1, ∃ second ∈ strategies2, first.same second = none
    · rw [allAndWith_none_of_panic strategies1 strategies2 hp] at hout
      exact absurd hout (by simp)
    · have hok : ∀ first ∈ strategies1, ∀ second ∈ strategies2,
          first.same second ≠ none := by
        intro first hf second hs hsame
        exact hp ⟨first, hf, second, hs, hsame⟩
      rw [allAndWith_eq_product strategies1 strategies2 hok] at hout
      rw [← Option.some.inj hout, List.mem_map] at ha
      obtain ⟨⟨first, second⟩, hmem, hel⟩ := ha
      have hmem' := List.pair_mem_product.mp hmem
      unfold pairElement at hel
      by_cases hsame : first.same second = some true
      · simp [hsame] at hel
      · simp only [hsame, if_false, Sum.inr.injEq] at hel
        refine ⟨first, second, hmem'.1, hmem'.2, ?_, ?_⟩
        · rw [← hel]
        · rw [← hel]; rfl

/-- Witness for the amended C6: the pair built from two strategies named `a` and `b`. -/
theorem and_pair_names_witness :
    newPair (canned 1 "a" []) (canned 2 "b" []) ∈
      AllAndStrategies [canned 1 "a" [], canned 2 "b" []] ∧
    ∃ first second, first ∈ [canned 1 "a" [], canned 2 "b" []] ∧
      second ∈ [canned 1 "a" [], canned 2 "b" []] ∧
      (newPair (canned 1 "a" []) (canned 2 "b" [])).Strategies = [first, second] ∧
      (newPair (canned 1 "a" []) (canned 2 "b" [])).Name =
        first.Name ++ " and " ++ second.Name :=
  have hmem : newPair (canned 1 "a" []) (canned 2 "b" []) ∈
      AllAndStrategies [canned 1 "a" [], canned 2 "b" []] := by
    have h : AllAndStrategies [canned 1 "a" [], canned 2 "b" []] =
        [newPair (canned 1 "a" []) (canned 2 "b" [])] := rfl
    rw [h]
    exact List.mem_singleton.mpr rfl
  ⟨hmem, and_pair_names.1 _ _ hmem⟩

/-! ## BollingerBandsWidthStrategy.Compute -/

theorem operate3_length {α β γ δ : Type} (o : α → β → γ → δ) :
    ∀ (ac : List α) (bc : List β) (cc : List γ),
      (Operate3 o ac bc cc).length = min ac.length (min bc.length cc.length) := by
  intro ac
  induction ac with
  | nil => intro bc cc; simp [Operate3]
  | cons a ac ih =>
    intro bc cc
    cases bc with
    | nil => simp [Operate3]
    | cons b bc =>
      cases cc with
      | nil => simp [Operate3]
      | cons c cc => simp [Operate3, ih, Nat.succ_min_succ]

theorem operate3_getElem? {α β γ δ : Type} (o : α → β → γ → δ) :
    ∀ (ac : List α) (bc : List β) (cc : List γ) (k : Nat),
      k < (Operate3 o ac bc cc).length →
      ∃ a b c, ac[k]? = some a ∧ bc[k]? = some b ∧ cc[k]? = some c ∧
        (Operate3 o ac bc cc)[k]? = some (o a b c) := by
  intro ac
  induction ac with
  | nil => intro bc cc k hk; simp [Operate3] at hk
  | cons a ac ih =>
    intro bc cc k hk
    cases bc with
    | nil => simp [Operate3] at hk
    | cons b bc =>
      cases cc with
      | nil => simp [Operate3] at hk
      | cons c cc =>
        cases k with
        | zero => exact ⟨a, b, c, by simp, by simp, by simp, by simp [Operate3]⟩
        | succ k =>
          have hk' : k < (Operate3 o ac bc cc).length := by
            simpa [Operate3] using hk
          obtain ⟨a', b', c', ha, hb, hc, ho⟩ := ih bc cc k hk'
          exact ⟨a', b', c', by simpa using ha, by simpa using hb, by simpa using hc,
            by simpa [Operate3] using ho⟩

theorem widthAction_ne_sell (b : BollingerBandsWidthStrategy) (upper lower closing : F64) :
    b.widthAction upper lower closing ≠ Action.Sell := by
  unfold BollingerBandsWidthStrategy.widthAction
  by_cases h1 : F64.eq closing (F64.num 0) = true
  · simp [h1]
  · by_cases h2 : F64.ge (F64.div (F64.sub upper lower) closing) b.Sensitivity = true
    · simp [h1, h2]
    · simp [h1, h2]

theorem width_compute_length (b : BollingerBandsWidthStrategy) (snapshots : List Snapshot) :
    (b.Compute snapshots).length =
      b.BollingerBands.IdlePeriod +
        min (b.BollingerBands.Compute (SnapshotsAsClosings snapshots)).1.length
          (min (b.BollingerBands.Compute (SnapshotsAsClosings snapshots)).2.2.length
            (snapshots.length - b.BollingerBands.IdlePeriod)) := by
  simp [BollingerBandsWidthStrategy.Compute, Shift, Skip, operate3_length,
    SnapshotsAsClosings]

/-- C9 (as stated, refuted). With an indicator of idle period 2 that yields one upper and
one lower value per closing after the first two, `Compute` on a single snapshot emits two
actions (the two Hold fillers), not one. -/
theorem width_short_input_overlong :
    (∀ closings : List F64,
      (sampleBands.Compute closings).1.length = closings.length - sampleBands.IdlePeriod ∧
      (sampleBands.Compute closings).2.2.length =
        closings.length - sampleBands.IdlePeriod) ∧
    sampleWidth.Compute [closeAt 1] = [Action.Hold, Action.Hold] ∧
    (sampleWidth.Compute [closeAt 1]).length ≠ [closeAt 1].length := by
  refine ⟨?_, ?_, ?_⟩
  · intro closings
    simp [sampleBands]
  · simp [BollingerBandsWidthStrategy.Compute, Shift, Skip, Operate3, SnapshotsAsClosings,
      sampleWidth, sampleBands, List.replicate]
  · simp [BollingerBandsWidthStrategy.Compute, Shift, Skip, Operate3, SnapshotsAsClosings,
      sampleWidth, sampleBands]

/-- C9 (amended). Assuming the indicator yields one upper and one lower value per closing
after its first `IdlePeriod()` closings, `Compute` emits `max(n, IdlePeriod())` actions for
`n` snapshots: exactly `n` when there are at least `IdlePeriod()` snapshots, and
`IdlePeriod()` for a shorter input. -/
theorem width_compute_aligned (b : BollingerBandsWidthStrategy) (snapshots : List Snapshot)
    (hupper : (b.BollingerBands.Compute (SnapshotsAsClosings snapshots)).1.length =
      snapshots.length - b.BollingerBands.IdlePeriod)
    (hlower : (b.BollingerBands.Compute (SnapshotsAsClosings snapshots)).2.2.length =
      snapshots.length - b.BollingerBands.IdlePeriod) :
    (b.Compute snapshots).length = max snapshots.length b.BollingerBands.IdlePeriod ∧
    (b.BollingerBands.IdlePeriod ≤ snapshots.length →
      (b.Compute snapshots).length = snapshots.length) ∧
    (snapshots.length < b.BollingerBands.IdlePeriod →
      (b.Compute snapshots).length = b.BollingerBands.IdlePeriod) := by
  have h := width_compute_length b snapshots
  rw [hupper, hlower] at h
  refine ⟨?_, ?_, ?_⟩
  · rw [h]; omega
  · intro _; rw [h]; omega
  · intro _; rw [h]; omega

/-- Witness for the amended C9: the stand-in indicator of idle period 2 on three
snapshots. -/
theorem width_compute_aligned_witness :
    ((sampleWidth.BollingerBands.Compute
        (SnapshotsAsClosings [closeAt 1, closeAt 2, closeAt 4])).1.length =
      [closeAt 1, closeAt 2, closeAt 4].length - sampleWidth.BollingerBands.IdlePeriod ∧
     (sampleWidth.BollingerBands.Compute
        (SnapshotsAsClosings [closeAt 1, closeAt 2, closeAt 4])).2.2.length =
      [closeAt 1, closeAt 2, closeAt 4].length - sampleWidth.BollingerBands.IdlePeriod) ∧
    ((sampleWidth.Compute [closeAt 1, closeAt 2, closeAt 4]).length =
        max [closeAt 1, closeAt 2, closeAt 4].length sampleWidth.BollingerBands.IdlePeriod ∧
     (sampleWidth.BollingerBands.IdlePeriod ≤ [closeAt 1, closeAt 2, closeAt 4].length →
        (sampleWidth.Compute [closeAt 1, closeAt 2, closeAt 4]).length =
          [closeAt 1, closeAt 2, closeAt 4].length) ∧
     ([closeAt 1, closeAt 2, closeAt 4].length < sampleWidth.BollingerBands.IdlePeriod →
        (sampleWidth.Compute [closeAt 1, closeAt 2, closeAt 4]).length =
          sampleWidth.BollingerBands.IdlePeriod)) :=
  ⟨⟨by simp [sampleWidth, sampleBands, SnapshotsAsClosings],
    by simp [sampleWidth, sampleBands, SnapshotsAsClosings]⟩,
   width_compute_aligned sampleWidth [closeAt 1, closeAt 2, closeAt 4]
     (by simp [sampleWidth, sampleBands, SnapshotsAsClosings])
     (by simp [sampleWidth, sampleBands, SnapshotsAsClosings])⟩

/-- C10. `BollingerBandsWidthStrategy.Compute` emits `IdlePeriod()` actions followed by
one action per step at which the upper band, the lower band and the closings after the
idle period all yield a value. The first `IdlePeriod()` actions are Hold; the `k`-th
action after them is Buy exactly when the closing at input position `IdlePeriod() + k` is
non-zero and `(upper_k - lower_k) / closing_k >= Sensitivity` in `float64` arithmetic, and
Hold otherwise; no action is Sell. -/
theorem width_compute_actions (b : BollingerBandsWidthStrategy) (snapshots : List Snapshot) :
    (b.Compute snapshots).length =
      b.BollingerBands.IdlePeriod +
        min (b.BollingerBands.Compute (SnapshotsAsClosings snapshots)).1.length
          (min (b.BollingerBands.Compute (SnapshotsAsClosings snapshots)).2.2.length
            (snapshots.length - b.BollingerBands.IdlePeriod)) ∧
    b.BollingerBands.IdlePeriod ≤ (b.Compute snapshots).length ∧
    (∀ i, i < b.BollingerBands.IdlePeriod → (b.Compute snapshots)[i]? = some Action.Hold) ∧
    (∀ k, b.BollingerBands.IdlePeriod + k < (b.Compute snapshots).length →
      ∃ upper lower closing,
        (b.BollingerBands.Compute (SnapshotsAsClosings snapshots)).1[k]? = some upper ∧
        (b.BollingerBands.Compute (SnapshotsAsClosings snapshots)).2.2[k]? = some lower ∧
        (SnapshotsAsClosings snapshots)[b.BollingerBands.IdlePeriod + k]? = some closing ∧
        (b.Compute snapshots)[b.BollingerBands.IdlePeriod + k]? =
          some (if F64.eq closing (F64.num 0) = false ∧
                  F64.ge (F64.div (F64.sub upper lower) closing) b.Sensitivity = true
                then Action.Buy else Action.Hold)) ∧
    (∀ a ∈ b.Compute snapshots, a ≠ Action.Sell) := by
  have hshape : b.Compute snapshots =
      List.replicate b.BollingerBands.IdlePeriod Action.Hold ++
        Operate3 b.widthAction (b.BollingerBands.Compute (SnapshotsAsClosings snapshots)).1
          (b.BollingerBands.Compute (SnapshotsAsClosings snapshots)).2.2
          ((SnapshotsAsClosings snapshots).drop b.BollingerBands.IdlePeriod) := rfl
  refine ⟨width_compute_length b snapshots, ?_, ?_, ?_, ?_⟩
  · rw [hshape, List.length_append, List.length_replicate]
    omega
  · intro i hi
    rw [hshape, List.getElem?_append_left (by simpa using hi), List.getElem?_replicate,
      if_pos hi]
  · intro k hk
    have hk' : k < (Operate3 b.widthAction
        (b.BollingerBands.Compute (SnapshotsAsClosings snapshots)).1
        (b.BollingerBands.Compute (SnapshotsAsClosings snapshots)).2.2
        ((SnapshotsAsClosings snapshots).drop b.BollingerBands.IdlePeriod)).length := by
      rw [hshape, List.length_append, List.length_replicate] at hk
      omega
    obtain ⟨upper, lower, closing, hu, hl, hc, ho⟩ := operate3_getElem? _ _ _ _ k hk'
    refine ⟨upper, lower, closing, hu, hl, ?_, ?_⟩
    · rw [← hc, List.getElem?_drop]
    · rw [hshape, List.getElem?_append_right (by simp), List.length_replicate,
        Nat.add_sub_cancel_left, ho]
      congr 1
      unfold BollingerBandsWidthStrategy.widthAction
      by_cases h1 : F64.eq closing (F64.num 0) = true
      · simp [h1]
      · by_cases h2 :
            F64.ge (F64.div (F64.sub upper lower) closing) b.Sensitivity = true
        · simp [h1, h2]
        · simp [h1, h2]
  · intro a ha
    rw [hshape, List.mem_append] at ha
    rcases ha with ha | ha
    · rw [List.eq_of_mem_replicate ha]
      decide
    · obtain ⟨k, hk⟩ := List.mem_iff_getElem?.mp ha
      have hlt : k < (Operate3 b.widthAction
          (b.BollingerBands.Compute (SnapshotsAsClosings snapshots)).1
          (b.BollingerBands.Compute (SnapshotsAsClosings snapshots)).2.2
          ((SnapshotsAsClosings snapshots).drop b.BollingerBands.IdlePeriod)).length := by
        by_contra hge
        rw [List.getElem?_eq_none (by omega)] at hk
        exact absurd hk (by simp)
      obtain ⟨upper, lower, closing, _, _, _, ho⟩ := operate3_getElem? _ _ _ _ k hlt
      rw [ho] at hk
      rw [← Option.some.inj hk]
      exact widthAction_ne_sell b upper lower closing

/-! ## Shift, Skip, Count, Change, Last, Operate -/

theorem shift_skip_length {α : Type} (s : List α) (n : Nat) (fill : α) :
    (Shift (Skip s n) n fill).length = n + (s.length - n) := by
  simp [Shift, Skip]

theorem shift_skip_getElem?_lt {α : Type} (s : List α) (n : Nat) (fill : α) (i : Nat)
    (hi : i < n) : (Shift (Skip s n) n fill)[i]? = some fill := by
  unfold Shift Skip
  rw [List.getElem?_append_left (by simpa using hi), List.getElem?_replicate, if_pos hi]

theorem shift_skip_getElem?_ge {α : Type} (s : List α) (n : Nat) (fill : α) (i : Nat)
    (hi : n ≤ i) : (Shift (Skip s n) n fill)[i]? = s[i]? := by
  unfold Shift Skip
  rw [List.getElem?_append_right (by simpa using hi), List.length_replicate,
    List.getElem?_drop]
  congr 1
  omega

/-- C11 (as stated, refuted). For the one-element sequence `[1]` and `n = 2`,
`Shift(Skip(s, n), n, fill)` is `[0, 0]`: two elements, not one. -/
theorem shift_skip_short :
    Shift (Skip [(1 : Int)] 2) 2 0 = [0, 0] ∧
    (Shift (Skip [(1 : Int)] 2) 2 0).length ≠ [(1 : Int)].length := by
  decide

/-- C11 (amended). For every sequence `s` and every `n` with `n <= len(s)`,
`Shift(Skip(s, n), n, fill)` has the same length as `s`, its first `n` elements are all
equal to `fill`, and the remaining elements are the elements of `s` from position `n` on,
unchanged and in order. -/
theorem shift_skip_aligned {α : Type} (s : List α) (n : Nat) (fill : α)
    (hn : n ≤ s.length) :
    (Shift (Skip s n) n fill).length = s.length ∧
    (∀ i, i < n → (Shift (Skip s n) n fill)[i]? = some fill) ∧
    (∀ i, n ≤ i → (Shift (Skip s n) n fill)[i]? = s[i]?) := by
  refine ⟨?_, fun i hi => shift_skip_getElem?_lt s n fill i hi,
    fun i hi => shift_skip_getElem?_ge s n fill i hi⟩
  rw [shift_skip_length]
  omega

/-- Witness for the amended C11: the sequence of `TestSkip` with `n = 2`. -/
theorem shift_skip_aligned_witness :
    2 ≤ [(2 : Int), 4, 6, 8].length ∧
    ((Shift (Skip [(2 : Int), 4, 6, 8] 2) 2 0).length = [(2 : Int), 4, 6, 8].length ∧
     (∀ i, i < 2 → (Shift (Skip [(2 : Int), 4, 6, 8] 2) 2 0)[i]? = some 0) ∧
     (∀ i, 2 ≤ i → (Shift (Skip [(2 : Int), 4, 6, 8] 2) 2 0)[i]? = [(2 : Int), 4, 6, 8][i]?)) :=
  ⟨by decide, shift_skip_aligned [(2 : Int), 4, 6, 8] 2 0 (by decide)⟩

theorem count_length {α : Type} (s : List α) : ∀ (k : Int), (Count k s).length = s.length := by
  induction s with
  | nil => intro k; rfl
  | cons a s ih => intro k; simp [Count, ih]

theorem count_getElem? {α : Type} (s : List α) :
    ∀ (k : Int) (i : Nat), i < s.length → (Count k s)[i]? = some (k + (i : Int)) := by
  induction s with
  | nil => intro k i hi; simp at hi
  | cons a s ih =>
    intro k i hi
    cases i with
    | zero => simp [Count]
    | succ i =>
      have hi' : i < s.length := by simpa using hi
      simp only [Count, List.getElem?_cons_succ, ih (k + 1) i hi']
      congr 1
      push_cast
      ring

/-- C12 (as stated, refuted). `Count(1, [1, 1, 1, 1])` is `[1, 2, 3, 4]` (the case of
`TestCount`): its element 0 is `1 = k + 0`, not `k + 0 + 1 = 2`. -/
theorem count_first_is_seed :
    Count 1 [(1 : Int), 1, 1, 1] = [1, 2, 3, 4] ∧
    (Count 1 [(1 : Int), 1, 1, 1])[0]? ≠ some (1 + 0 + 1) := by
  decide

/-- C12 (amended). For every start value `k` and every stream `s`, the `i`-th element
(0-based) of `Count(k, s)` equals `k + i`, for every valid `i`. -/
theorem count_elem {α : Type} (k : Int) (s : List α) (i : Nat) (hi : i < s.length) :
    (Count k s)[i]? = some (k + (i : Int)) :=
  count_getElem? s k i hi

/-- Witness for the amended C12: element 3 of `Count(1, [1, 1, 1, 1])`. -/
theorem count_elem_witness :
    3 < [(1 : Int), 1, 1, 1].length ∧
    (Count 1 [(1 : Int), 1, 1, 1])[3]? = some (1 + ((3 : Nat) : Int)) :=
  ⟨by decide, count_elem 1 [(1 : Int), 1, 1, 1] 3 (by decide)⟩

/-- C13. For every start value `k` and every stream `s`, `Count(k, s)` has the same
length as `s` and is the sequence `k, k+1, ..., k+len(s)-1`, whatever the values of `s`
are; in particular `Count(1, [1, 1, 1, 1]) = [1, 2, 3, 4]`. -/
theorem count_sequence {α : Type} (k : Int) (s : List α) :
    (Count k s).length = s.length ∧
    Count k s = (List.range s.length).map (fun (i : Nat) => k + (i : Int)) ∧
    Count 1 [(1 : Int), 1, 1, 1] = [1, 2, 3, 4] := by
  refine ⟨count_length s k, ?_, by decide⟩
  apply List.ext_getElem?
  intro i
  by_cases hi : i < s.length
  · rw [count_getElem? s k i hi, List.getElem?_map, List.getElem?_range hi]
    rfl
  · rw [List.getElem?_eq_none (by rw [count_length]; omega),
      List.getElem?_eq_none (by simp; omega)]

/-- C14. `Change(s, n)` has length `len(s) - n` (0 when `len(s) <= n`) and its `i`-th
element equals `s[i+n] - s[i]` for every valid `i`; in particular
`Change([1,2,5,5,8,2,1,1,3,4], 2) = [4,3,3,-3,-7,-1,2,3]`. -/
theorem change_spec {α : Type} [Sub α] (s : List α) (n : Nat) :
    (Change s n).length = s.length - n ∧
    (∀ i, i < s.length - n →
      ∃ x y, s[i + n]? = some x ∧ s[i]? = some y ∧ (Change s n)[i]? = some (x - y)) ∧
    Change [(1 : Int), 2, 5, 5, 8, 2, 1, 1, 3, 4] 2 = [4, 3, 3, -3, -7, -1, 2, 3] := by
  refine ⟨?_, ?_, by decide⟩
  · simp only [Change, List.length_zipWith, List.length_drop]
    omega
  · intro i hi
    have h1 : i + n < s.length := by omega
    have h2 : i < s.length := by omega
    refine ⟨s[i + n], s[i], List.getElem?_eq_getElem h1, List.getElem?_eq_getElem h2, ?_⟩
    unfold Change
    rw [List.getElem?_zipWith_eq_some]
    refine ⟨s[i + n], s[i], ?_, List.getElem?_eq_getElem h2, rfl⟩
    rw [List.getElem?_drop, Nat.add_comm n i]
    exact List.getElem?_eq_getElem h1

/-- C15. `Last(s, n)` is exactly the final `min(n, len(s))` elements of `s` in their
original order: a suffix of `s` of that length, equal to all of `s` when `len(s) < n`; in
particular `Last([1..10], 4) = [7,8,9,10]` and `Last([1,2], 4) = [1,2]`. -/
theorem last_spec {α : Type} (s : List α) (n : Nat) :
    (Last s n).length = min n s.length ∧
    (∃ front, s = front ++ Last s n) ∧
    (∀ i, i < min n s.length → (Last s n)[i]? = s[s.length - min n s.length + i]?) ∧
    (s.length < n → Last s n = s) ∧
    Last [(1 : Int), 2, 3, 4, 5, 6, 7, 8, 9, 10] 4 = [7, 8, 9, 10] ∧
    Last [(1 : Int), 2] 4 = [1, 2] := by
  refine ⟨?_, ?_, ?_, ?_, by decide, by decide⟩
  · unfold Last
    by_cases h : s.length < n
    · rw [if_pos h]
      omega
    · rw [if_neg h, List.length_drop]
      omega
  · unfold Last
    by_cases h : s.length < n
    · rw [if_pos h]
      exact ⟨[], rfl⟩
    · rw [if_neg h]
      exact ⟨s.take (s.length - n), (List.take_append_drop _ _).symm⟩
  · intro i _
    unfold Last
    by_cases h : s.length < n
    · rw [if_pos h]
      congr 1
      omega
    · rw [if_neg h, List.getElem?_drop]
      congr 1
      omega
  · intro h
    unfold Last
    rw [if_pos h]

theorem operate_eq_zipWith {α β γ : Type} (o : α → β → γ) :
    ∀ (ac : List α) (bc : List β), Operate o ac bc = List.zipWith o ac bc := by
  intro ac
  induction ac with
  | nil => intro bc; simp [Operate, OperateWith]
  | cons a ac ih =>
    intro bc
    cases bc with
    | nil => simp [Operate, OperateWith]
    | cons b bc =>
      have := ih bc
      unfold Operate at this ⊢
      simp only [OperateWith, List.zipWith_cons_cons, this]

/-- C16. For all input sequences `a` and `b` and every combining function `f`, the
two-stream combine `Operate` produces exactly `min(len(a), len(b))` elements, and its
`i`-th element is `f(a[i], b[i])`: it is the strict zip of the two streams. -/
theorem operate_spec {α β γ : Type} (f : α → β → γ) (a : List α) (b : List β) :
    (Operate f a b).length = min a.length b.length ∧
    (∀ i, i < min a.length b.length →
      ∃ x y, a[i]? = some x ∧ b[i]? = some y ∧ (Operate f a b)[i]? = some (f x y)) ∧
    Operate f a b = List.zipWith f a b := by
  have h := operate_eq_zipWith f a b
  refine ⟨?_, ?_, h⟩
  · rw [h, List.length_zipWith]
  · intro i hi
    have h1 : i < a.length := by omega
    have h2 : i < b.length := by omega
    refine ⟨a[i], b[i], List.getElem?_eq_getElem h1, List.getElem?_eq_getElem h2, ?_⟩
    rw [h, List.getElem?_zipWith_eq_some]
    exact ⟨a[i], b[i], List.getElem?_eq_getElem h1, List.getElem?_eq_getElem h2, rfl⟩

/-! ## The closing window of NoFlatStrategy -/

theorem window_step_zero (seen : List F64) (sn : Snapshot) (snaps : List Snapshot)
    (p : Nat) :
    (seen ++ (SnapshotsAsClosings (sn :: snaps)).take (0 + 1)).drop
        (seen.length + (0 + 1) - p) =
      (seen ++ [sn.Close]).drop ((seen ++ [sn.Close]).length - p) := by
  simp [SnapshotsAsClosings]

theorem window_step_succ (seen : List F64) (sn : Snapshot) (snaps : List Snapshot)
    (p i : Nat) :
    (seen ++ [sn.Close] ++ (SnapshotsAsClosings snaps).take (i + 1)).drop
        ((seen ++ [sn.Close]).length + (i + 1) - p) =
      (seen ++ (SnapshotsAsClosings (sn :: snaps)).take (i + 1 + 1)).drop
        (seen.length + (i + 1 + 1) - p) := by
  simp only [SnapshotsAsClosings, List.map_cons, List.take_succ_cons,
    List.append_assoc, List.singleton_append, List.length_append,
    List.length_singleton]
  congr 1
  omega

theorem lastP_ne_nil (seen : List F64) (x : F64) (p : Nat) (hp : 1 ≤ p) :
    (seen ++ [x]).drop ((seen ++ [x]).length - p) ≠ [] := by
  intro h
  have := congrArg List.length h
  simp only [List.length_drop, List.length_append, List.length_singleton,
    List.length_nil] at this
  omega

theorem computeTrace_spec (n : NoFlatStrategy) (p : Nat) (hp : 1 ≤ p)
    (hper : n.Period = p) :
    ∀ (acts : List Action) (snaps : List Snapshot) (seen : List F64),
      (n.computeTrace acts snaps (seen.drop (seen.length - p))).length =
        min acts.length snaps.length ∧
      ∀ i, i < min acts.length snaps.length →
        (n.computeTrace acts snaps (seen.drop (seen.length - p)))[i]? =
          some ((seen ++ (SnapshotsAsClosings snaps).take (i + 1)).drop
                  (seen.length + (i + 1) - p),
                decide (((seen ++ (SnapshotsAsClosings snaps).take (i + 1)).drop
                  (seen.length + (i + 1) - p)).length = p)) := by
  intro acts
  induction acts with
  | nil => intro snaps seen; simp [NoFlatStrategy.computeTrace]
  | cons a acts ih =>
    intro snaps seen
    cases snaps with
    | nil => simp [NoFlatStrategy.computeTrace]
    | cons sn snaps =>
      have hslide := slide_lastP n p hp hper seen sn.Close
      obtain ⟨hlen, helem⟩ := ih snaps (seen ++ [sn.Close])
      obtain ⟨m, hm⟩ := calculateFlatness_some n _ (lastP_ne_nil seen sn.Close p hp)
      have hlenInt : ∀ (l : List F64), ((l.length : Int) = (p : Int)) ↔ l.length = p :=
        fun l => Int.ofNat_inj
      have hw0 := window_step_zero seen sn snaps p
      by_cases hfull :
          ((seen ++ [sn.Close]).drop ((seen ++ [sn.Close]).length - p)).length = p
      · have hunf : n.computeTrace (a :: acts) (sn :: snaps) (seen.drop (seen.length - p)) =
            ((seen ++ [sn.Close]).drop ((seen ++ [sn.Close]).length - p), true) ::
              n.computeTrace acts snaps
                ((seen ++ [sn.Close]).drop ((seen ++ [sn.Close]).length - p)) := by
          simp only [NoFlatStrategy.computeTrace, hslide, hper, hlenInt, hfull, if_true, hm]
        rw [hunf]
        refine ⟨by rw [List.length_cons, hlen, List.length_cons, List.length_cons,
          Nat.succ_min_succ], ?_⟩
        intro i hi
        cases i with
        | zero =>
          rw [hw0, List.getElem?_cons_zero, decide_eq_true hfull]
        | succ i =>
          have hi' : i < min acts.length snaps.length := by
            simp only [List.length_cons, Nat.succ_min_succ] at hi
            omega
          rw [List.getElem?_cons_succ, helem i hi', window_step_succ]
      · have hunf : n.computeTrace (a :: acts) (sn :: snaps) (seen.drop (seen.length - p)) =
            ((seen ++ [sn.Close]).drop ((seen ++ [sn.Close]).length - p), false) ::
              n.computeTrace acts snaps
                ((seen ++ [sn.Close]).drop ((seen ++ [sn.Close]).length - p)) := by
          simp only [NoFlatStrategy.computeTrace, hslide, hper, hlenInt, hfull, if_false]
        rw [hunf]
        refine ⟨by rw [List.length_cons, hlen, List.length_cons, List.length_cons,
          Nat.succ_min_succ], ?_⟩
        intro i hi
        cases i with
        | zero =>
          rw [hw0, List.getElem?_cons_zero, decide_eq_false hfull]
        | succ i =>
          have hi' : i < min acts.length snaps.length := by
            simp only [List.length_cons, Nat.succ_min_succ] at hi
            omega
          rw [List.getElem?_cons_succ, helem i hi', window_step_succ]

theorem measuresTrace_eq_computeTrace (n : NoFlatStrategy) :
    ∀ (snaps : List Snapshot) (w : List F64),
      n.measuresTrace snaps w =
        n.computeTrace (snaps.map (fun _ => Action.Hold)) snaps w := by
  intro snaps
  induction snaps with
  | nil => intro w; rfl
  | cons sn snaps ih =>
    intro w
    simp only [NoFlatStrategy.measuresTrace, NoFlatStrategy.computeTrace, List.map_cons, ih]

theorem computeTrace_top (n : NoFlatStrategy) (p : Nat) (hp : 1 ≤ p) (hper : n.Period = p)
    (acts : List Action) (snaps : List Snapshot) :
    (n.computeTrace acts snaps []).length = min acts.length snaps.length ∧
    ∀ i, i < min acts.length snaps.length →
      (n.computeTrace acts snaps [])[i]? =
        some (windowAt (SnapshotsAsClosings snaps) p i, decide (p ≤ i + 1)) := by
  obtain ⟨hlen, helem⟩ := computeTrace_spec n p hp hper acts snaps []
  simp only [List.length_nil, Nat.zero_sub, List.drop_nil, List.nil_append,
    Nat.zero_add] at hlen helem
  refine ⟨hlen, ?_⟩
  intro i hi
  have hi' : i < (SnapshotsAsClosings snaps).length := by
    simp only [SnapshotsAsClosings, List.length_map]
    omega
  have hwl := windowAt_length (SnapshotsAsClosings snaps) p i hi'
  have hdec : decide ((windowAt (SnapshotsAsClosings snaps) p i).length = p) =
      decide (p ≤ i + 1) := by
    apply decide_eq_decide.mpr
    rw [hwl]
    omega
  have := helem i hi
  simp only [windowAt] at hdec ⊢
  rw [this, hdec]

theorem windowAt_getElem?_min (closings : List F64) (p i k : Nat)
    (hk : k < min (i + 1) p) :
    (windowAt closings p i)[k]? = closings[i + 1 - min (i + 1) p + k]? := by
  simp only [windowAt, List.getElem?_drop, List.getElem?_take]
  rw [if_pos (by omega)]
  congr 1
  omega

theorem measures_loop_spec (n : NoFlatStrategy) (p : Nat) (hp : 1 ≤ p)
    (hper : n.Period = p) :
    ∀ (snaps : List Snapshot) (seen : List F64),
      ∃ ms, n.measuresLoop snaps (seen.drop (seen.length - p)) = some ms ∧
        ms.length = snaps.length ∧
        ∀ i, i < ms.length →
          ms[i]? =
            if ((seen ++ (SnapshotsAsClosings snaps).take (i + 1)).drop
                  (seen.length + (i + 1) - p)).length = p
            then (n.calculateFlatness ((seen ++ (SnapshotsAsClosings snaps).take (i + 1)).drop
                  (seen.length + (i + 1) - p))).map Prod.fst
            else some (F64.num 0) := by
  intro snaps
  induction snaps with
  | nil =>
    intro seen
    exact ⟨[], by simp [NoFlatStrategy.measuresLoop], by simp, by simp⟩
  | cons sn snaps ih =>
    intro seen
    have hslide := slide_lastP n p hp hper seen sn.Close
    obtain ⟨ms, hms, hlen, helem⟩ := ih (seen ++ [sn.Close])
    obtain ⟨m, hm⟩ := calculateFlatness_some n _ (lastP_ne_nil seen sn.Close p hp)
    have hlenInt : ∀ (l : List F64), ((l.length : Int) = (p : Int)) ↔ l.length = p :=
      fun l => Int.ofNat_inj
    have hw0 := window_step_zero seen sn snaps p
    by_cases hfull :
        ((seen ++ [sn.Close]).drop ((seen ++ [sn.Close]).length - p)).length = p
    · refine ⟨m :: ms, ?_, ?_, ?_⟩
      · simp only [NoFlatStrategy.measuresLoop, hslide, hper, hlenInt, hfull, if_true,
          hm, hms]
      · rw [List.length_cons, hlen, List.length_cons]
      · intro i hi
        cases i with
        | zero =>
          rw [hw0, hm, if_pos hfull, List.getElem?_cons_zero]
          rfl
        | succ i =>
          have hi' : i < ms.length := by simpa using hi
          rw [List.getElem?_cons_succ, helem i hi', window_step_succ]
    · refine ⟨F64.num 0 :: ms, ?_, ?_, ?_⟩
      · simp only [NoFlatStrategy.measuresLoop, hslide, hper, hlenInt, hfull, if_false,
          hms]
      · rw [List.length_cons, hlen, List.length_cons]
      · intro i hi
        cases i with
        | zero =>
          rw [hw0, if_neg hfull, List.getElem?_cons_zero]
        | succ i =>
          have hi' : i < ms.length := by simpa using hi
          rw [List.getElem?_cons_succ, helem i hi', window_step_succ]

theorem measures_elem (n : NoFlatStrategy) (snapshots : List Snapshot) (p : Nat)
    (hp : 1 ≤ p) (hper : n.Period = p) :
    ∃ ms, n.computeFlatnessMeasures snapshots = some ms ∧
      ms.length = snapshots.length ∧
      ∀ i, i < ms.length →
        ms[i]? =
          if p ≤ i + 1
          then (n.calculateFlatness (windowAt (SnapshotsAsClosings snapshots) p i)).map
            Prod.fst
          else some (F64.num 0) := by
  obtain ⟨ms, hms, hlen, helem⟩ := measures_loop_spec n p hp hper snapshots []
  simp only [List.length_nil, Nat.zero_sub, List.drop_nil, List.nil_append,
    Nat.zero_add] at hms helem
  refine ⟨ms, ?_, hlen, ?_⟩
  · have hnot : ¬ n.Period < 0 := by
      rw [hper]
      omega
    simp only [NoFlatStrategy.computeFlatnessMeasures, hnot, if_false, hms]
  · intro i hi
    have hi' : i < (SnapshotsAsClosings snapshots).length := by
      simp only [SnapshotsAsClosings, List.length_map]
      omega
    have hwl := windowAt_length (SnapshotsAsClosings snapshots) p i hi'
    have := helem i hi
    simp only [windowAt] at hwl ⊢
    rw [this, hwl]
    by_cases h : p ≤ i + 1
    · rw [if_pos h, if_pos (by omega)]
    · rw [if_neg h, if_neg (by omega)]

theorem trace_called_spec (n : NoFlatStrategy) (p : Nat) (hp : 1 ≤ p) (hper : n.Period = p)
    (acts : List Action) (snaps : List Snapshot) (w : List F64) (called : Bool)
    (hmem : (w, called) ∈ n.computeTrace acts snaps []) :
    (called = true →
      w.length = p ∧ 0 < w.length ∧
        ∃ m, n.calculateFlatness w = some (m, F64.lt m n.FlatThreshold)) ∧
    (w.length < p → called = false) := by
  obtain ⟨hlen, helem⟩ := computeTrace_top n p hp hper acts snaps
  obtain ⟨i, hi⟩ := List.mem_iff_getElem?.mp hmem
  have hlt : i < min acts.length snaps.length := by
    rw [← hlen]
    by_contra hge
    rw [List.getElem?_eq_none (by omega)] at hi
    exact absurd hi (by simp)
  rw [helem i hlt] at hi
  have hpair := Option.some.inj hi
  have hw : windowAt (SnapshotsAsClosings snaps) p i = w := congrArg Prod.fst hpair
  have hc : decide (p ≤ i + 1) = called := congrArg Prod.snd hpair
  have hi' : i < (SnapshotsAsClosings snaps).length := by
    simp only [SnapshotsAsClosings, List.length_map]
    omega
  have hwl := windowAt_length (SnapshotsAsClosings snaps) p i hi'
  rw [hw] at hwl
  constructor
  · intro hcalled
    rw [← hc] at hcalled
    have hpi : p ≤ i + 1 := of_decide_eq_true hcalled
    have hwp : w.length = p := by omega
    have hne : w ≠ [] := by
      intro h
      rw [h] at hwp
      simp at hwp
      omega
    exact ⟨hwp, by omega, calculateFlatness_some n w hne⟩
  · intro hshort
    rw [← hc]
    exact decide_eq_false (by omega)

/-- C17. For a NoFlatStrategy with period `p >= 1`, the loop of `Compute` runs once per
pair of inner action and snapshot, and after snapshot `i` has been appended and the window
trimmed, the closing window is exactly the most recent `min(i+1, p)` closings in arrival
order (positions `i-p+1 .. i` once `i >= p-1`); it never holds more than `p` samples, and
`calculateFlatness` is applied to it exactly from output position `p-1` on. -/
theorem noflat_window_sliding (n : NoFlatStrategy) (snapshots : List Snapshot) (p : Nat)
    (hp : 1 ≤ p) (hper : n.Period = p) :
    (∃ out, n.Compute snapshots = some out ∧
      out.length = (n.computeTrace (n.InnerStrategy.Compute snapshots) snapshots []).length) ∧
    (n.computeTrace (n.InnerStrategy.Compute snapshots) snapshots []).length =
      min (n.InnerStrategy.Compute snapshots).length snapshots.length ∧
    ∀ i, i < min (n.InnerStrategy.Compute snapshots).length snapshots.length →
      ∃ w called,
        (n.computeTrace (n.InnerStrategy.Compute snapshots) snapshots [])[i]? =
          some (w, called) ∧
        w = windowAt (SnapshotsAsClosings snapshots) p i ∧
        w.length = min (i + 1) p ∧
        w.length ≤ p ∧
        (∀ k, k < min (i + 1) p →
          w[k]? = (SnapshotsAsClosings snapshots)[i + 1 - min (i + 1) p + k]?) ∧
        (called = true ↔ p ≤ i + 1) := by
  obtain ⟨hlen, helem⟩ :=
    computeTrace_top n p hp hper (n.InnerStrategy.Compute snapshots) snapshots
  obtain ⟨out, hout, holen, _⟩ := noflat_compute_elem n snapshots p hp hper
  refine ⟨⟨out, hout, by rw [holen, hlen]⟩, hlen, ?_⟩
  intro i hi
  have hi' : i < (SnapshotsAsClosings snapshots).length := by
    simp only [SnapshotsAsClosings, List.length_map]
    omega
  have hwl := windowAt_length (SnapshotsAsClosings snapshots) p i hi'
  refine ⟨windowAt (SnapshotsAsClosings snapshots) p i, decide (p ≤ i + 1), helem i hi,
    rfl, hwl, by omega, ?_, ?_⟩
  · intro k hk
    exact windowAt_getElem?_min _ p i k hk
  · simp

/-- Witness for C17: period 2 on three snapshots. -/
theorem noflat_window_sliding_witness :
    (1 ≤ 2 ∧ sampleNoFlat.Period = ((2 : Nat) : Int)) ∧
    (sampleNoFlat.computeTrace
        (sampleNoFlat.InnerStrategy.Compute [closeAt 10, closeAt 10, closeAt 20])
        [closeAt 10, closeAt 10, closeAt 20] []).length =
      min (sampleNoFlat.InnerStrategy.Compute [closeAt 10, closeAt 10, closeAt 20]).length
        [closeAt 10, closeAt 10, closeAt 20].length :=
  ⟨⟨by decide, rfl⟩,
   (noflat_window_sliding sampleNoFlat [closeAt 10, closeAt 10, closeAt 20] 2
      (by decide) rfl).2.1⟩

/-! ## An AndStrategy without members -/

theorem computeLoop_empty (fuel : Nat) :
    AndStrategy.computeLoop 0 fuel [] = (List.replicate fuel Action.Sell, false) := by
  induction fuel with
  | zero => rfl
  | succ fuel ih =>
    simp only [AndStrategy.computeLoop, CountActions, ih, AndStrategy.decision, if_true,
      List.replicate_succ]

/-- C18. An AndStrategy with an empty member list (the state `NewAndStrategy` returns):
the count of member actions succeeds at every step with all counts 0, the sell count 0
equals the member count 0, so every step emits Sell; the group never emits Hold or Buy,
and its loop never reaches the `break`. -/
theorem empty_and_always_sell (name : String) (fuel : Nat) (snapshots : List Snapshot) :
    (NewAndStrategy name).Strategies = [] ∧
    CountActions (ActionSources (NewAndStrategy name).Strategies snapshots) =
      some (0, 0, 0, []) ∧
    (∀ buy, AndStrategy.decision 0 buy 0 = Action.Sell) ∧
    (NewAndStrategy name).Compute fuel snapshots =
      (List.replicate fuel Action.Sell, false) ∧
    (∀ x ∈ ((NewAndStrategy name).Compute fuel snapshots).1, x = Action.Sell) := by
  have h : (NewAndStrategy name).Compute fuel snapshots =
      (List.replicate fuel Action.Sell, false) := by
    simp only [AndStrategy.Compute, NewAndStrategy, ActionSources, List.map_nil,
      List.length_nil, computeLoop_empty]
  refine ⟨rfl, rfl, ?_, h, ?_⟩
  · intro buy
    simp [AndStrategy.decision]
  · intro x hx
    rw [h] at hx
    exact List.eq_of_mem_replicate hx

/-! ## calculateFlatness is called on full windows only -/

/-- C19. For a NoFlatStrategy with period `p >= 1`, every window on which the loops of
`Compute` and of `computeFlatnessMeasures` call `calculateFlatness` has exactly `p >= 1`
elements, so `closingWindow[0]` is in bounds, the divisor of the mean is non-zero and the
call returns; on a window of fewer than `p` elements `calculateFlatness` is not called.
Neither method panics. (On an empty window `calculateFlatness` would panic.) -/
theorem noflat_calls_in_bounds (n : NoFlatStrategy) (snapshots : List Snapshot) (p : Nat)
    (hp : 1 ≤ p) (hper : n.Period = p) :
    (∃ out, n.Compute snapshots = some out) ∧
    (∃ measures, n.computeFlatnessMeasures snapshots = some measures) ∧
    (∀ w called,
      (w, called) ∈ n.computeTrace (n.InnerStrategy.Compute snapshots) snapshots [] →
      (called = true →
        w.length = p ∧ 0 < w.length ∧
          ∃ m, n.calculateFlatness w = some (m, F64.lt m n.FlatThreshold)) ∧
      (w.length < p → called = false)) ∧
    (∀ w called, (w, called) ∈ n.measuresTrace snapshots [] →
      (called = true →
        w.length = p ∧ 0 < w.length ∧
          ∃ m, n.calculateFlatness w = some (m, F64.lt m n.FlatThreshold)) ∧
      (w.length < p → called = false)) ∧
    n.calculateFlatness [] = none := by
  obtain ⟨out, hout, _, _⟩ := noflat_compute_elem n snapshots p hp hper
  obtain ⟨ms, hms, _, _⟩ := measures_elem n snapshots p hp hper
  refine ⟨⟨out, hout⟩, ⟨ms, hms⟩, ?_, ?_, rfl⟩
  · intro w called hmem
    exact trace_called_spec n p hp hper _ snapshots w called hmem
  · intro w called hmem
    rw [measuresTrace_eq_computeTrace] at hmem
    exact trace_called_spec n p hp hper _ snapshots w called hmem

/-- Witness for C19: period 2 on three snapshots. -/
theorem noflat_calls_in_bounds_witness :
    (1 ≤ 2 ∧ sampleNoFlat.Period = ((2 : Nat) : Int)) ∧
    (∃ out, sampleNoFlat.Compute [closeAt 10, closeAt 10, closeAt 20] = some out) ∧
    (∃ measures,
      sampleNoFlat.computeFlatnessMeasures [closeAt 10, closeAt 10, closeAt 20] =
        some measures) :=
  ⟨⟨by decide, rfl⟩,
   (noflat_calls_in_bounds sampleNoFlat [closeAt 10, closeAt 10, closeAt 20] 2
      (by decide) rfl).1,
   (noflat_calls_in_bounds sampleNoFlat [closeAt 10, closeAt 10, closeAt 20] 2
      (by decide) rfl).2.1⟩

/-! ## The reported measure and the decision of Compute -/

/-- C20. For a NoFlatStrategy with period `p >= 1`, `computeFlatnessMeasures` emits one
measure per snapshot, equal to 0 at positions `i < p-1`, and `Compute` emits one action
per pair of inner action and snapshot; at every position `i >= p-1` the
reported measure is the measure `calculateFlatness` yields for the window of `Compute` at
that position, and where `Compute` emits an action it emits Hold in place of the inner
action exactly when the reported measure is strictly below `FlatThreshold`. -/
theorem measures_match_compute (n : NoFlatStrategy) (snapshots : List Snapshot) (p : Nat)
    (hp : 1 ≤ p) (hper : n.Period = p) :
    ∃ measures out,
      n.computeFlatnessMeasures snapshots = some measures ∧
      n.Compute snapshots = some out ∧
      measures.length = snapshots.length ∧
      out.length = min (n.InnerStrategy.Compute snapshots).length snapshots.length ∧
      (∀ i, i < snapshots.length → i + 1 < p → measures[i]? = some (F64.num 0)) ∧
      (∀ i, i < snapshots.length → p ≤ i + 1 →
        ∃ m, measures[i]? = some m ∧
          n.calculateFlatness (windowAt (SnapshotsAsClosings snapshots) p i) =
            some (m, F64.lt m n.FlatThreshold) ∧
          (i < out.length →
            out[i]? = if F64.lt m n.FlatThreshold = true then some Action.Hold
              else (n.InnerStrategy.Compute snapshots)[i]?)) := by
  obtain ⟨out, hout, holen, hoelem⟩ := noflat_compute_elem n snapshots p hp hper
  obtain ⟨ms, hms, hmlen, hmelem⟩ := measures_elem n snapshots p hp hper
  refine ⟨ms, out, hms, hout, hmlen, holen, ?_, ?_⟩
  · intro i hi hlt
    rw [hmelem i (by omega), if_neg (by omega)]
  · intro i hi hge
    have hi' : i < (SnapshotsAsClosings snapshots).length := by
      simp only [SnapshotsAsClosings, List.length_map]
      exact hi
    have hwl := windowAt_length (SnapshotsAsClosings snapshots) p i hi'
    have hfull : (windowAt (SnapshotsAsClosings snapshots) p i).length = p := by omega
    have hne : windowAt (SnapshotsAsClosings snapshots) p i ≠ [] := by
      intro h
      rw [h] at hfull
      simp at hfull
      omega
    obtain ⟨m, hm⟩ := calculateFlatness_some n _ hne
    refine ⟨m, ?_, hm, ?_⟩
    · rw [hmelem i (by omega), if_pos hge, hm]
      rfl
    · intro hio
      rw [hoelem i hio, hm]
      simp [hfull]

/-- Witness for C20: period 2 on three snapshots. -/
theorem measures_match_compute_witness :
    (1 ≤ 2 ∧ sampleNoFlat.Period = ((2 : Nat) : Int)) ∧
    ∃ measures out,
      sampleNoFlat.computeFlatnessMeasures [closeAt 10, closeAt 10, closeAt 20] =
        some measures ∧
      sampleNoFlat.Compute [closeAt 10, closeAt 10, closeAt 20] = some out ∧
      measures.length = [closeAt 10, closeAt 10, closeAt 20].length ∧
      out.length = min
        (sampleNoFlat.InnerStrategy.Compute [closeAt 10, closeAt 10, closeAt 20]).length
        [closeAt 10, closeAt 10, closeAt 20].length ∧
      (∀ i, i < [closeAt 10, closeAt 10, closeAt 20].length → i + 1 < 2 →
        measures[i]? = some (F64.num 0)) ∧
      (∀ i, i < [closeAt 10, closeAt 10, closeAt 20].length → 2 ≤ i + 1 →
        ∃ m, measures[i]? = some m ∧
          sampleNoFlat.calculateFlatness
              (windowAt (SnapshotsAsClosings [closeAt 10, closeAt 10, closeAt 20]) 2 i) =
            some (m, F64.lt m sampleNoFlat.FlatThreshold) ∧
          (i < out.length →
            out[i]? = if F64.lt m sampleNoFlat.FlatThreshold = true then some Action.Hold
              else (sampleNoFlat.InnerStrategy.Compute
                [closeAt 10, closeAt 10, closeAt 20])[i]?)) :=
  ⟨⟨by decide, rfl⟩,
   measures_match_compute sampleNoFlat [closeAt 10, closeAt 10, closeAt 20] 2
     (by decide) rfl⟩

/-! ## NewAndStrategyWith -/

theorem intercalate_go_eq (sep : String) :
    ∀ (l : List String) (acc : String),
      String.intercalate.go acc sep l =
        match l with
        | [] => acc
        | x :: rest => acc ++ sep ++ joinedBy sep (x :: rest) := by
  intro l
  induction l with
  | nil => intro acc; rfl
  | cons a l ih =>
    intro acc
    rw [String.intercalate.go, ih]
    cases l with
    | nil => rfl
    | cons b l =>
      simp only [joinedBy, String.append_assoc]

theorem intercalate_eq_joinedBy (sep : String) (l : List String) :
    sep.intercalate l = joinedBy sep l := by
  cases l with
  | nil => rfl
  | cons a l =>
    rw [String.intercalate, intercalate_go_eq]
    cases l with
    | nil => rfl
    | cons b l => rfl

theorem collectNames_eq_map (ss : List Strategy) :
    collectNames ss = ss.map (fun s => s.Name) := by
  have h : ∀ (l : List Strategy) (init : List String),
      l.foldl (fun names s => names ++ [s.Name]) init = init ++ l.map (fun s => s.Name) := by
    intro l
    induction l with
    | nil => intro init; simp
    | cons a l ih => intro init; simp [ih]
  simpa [collectNames] using h ss []

/-- C21. `NewAndStrategyWith(ss...)` returns an AndStrategy whose member list is exactly
`ss` in the given order and whose `Name()` is `AND(` followed by the members' names, as
the loop of the constructor collects them, joined by `,` and followed by `)`; for the
empty list the name is `AND()`, for two members named `a` and `b` it is `AND(a,b)`. -/
theorem newAndStrategyWith_spec (ss : List Strategy) :
    (NewAndStrategyWith ss).Strategies = ss ∧
    (NewAndStrategyWith ss).Name =
      "AND(" ++ joinedBy "," (ss.map (fun s => s.Name)) ++ ")" ∧
    (NewAndStrategyWith ss).Name = "AND(" ++ joinedBy "," (collectNames ss) ++ ")" ∧
    (NewAndStrategyWith []).Name = "AND()" ∧
    (NewAndStrategyWith [canned 1 "a" []]).Name = "AND(a)" ∧
    (NewAndStrategyWith [canned 1 "a" [], canned 2 "b" []]).Name = "AND(a,b)" := by
  have hname : (NewAndStrategyWith ss).Name =
      "AND(" ++ joinedBy "," (ss.map (fun s => s.Name)) ++ ")" := by
    simp only [NewAndStrategyWith, AndStrategy.Name, intercalate_eq_joinedBy]
  refine ⟨rfl, hname, ?_, by decide, by decide, by decide⟩
  rw [collectNames_eq_map]
  exact hname

/-! ## Rounding in float64

The rounding of `F64.round` is characterised by the binade of its argument, and evaluated
on windows and band widths where the rounded result and the exact one fall on different
sides of the threshold. -/

/-- The exponent of a positive rational is the one of its binade. -/
theorem exponent_spec (a : ℚ) (ha : 0 < a) :
    (2 : ℚ) ^ (F64.exponent a) ≤ a ∧ a < (2 : ℚ) ^ (F64.exponent a + 1) := by
  have hnum : 0 < a.num := Rat.num_pos.mpr ha
  have hN : a.num.natAbs ≠ 0 := by
    intro h
    have := Int.natAbs_eq_zero.mp h
    omega
  have hD : a.den ≠ 0 := a.den_nz
  have hNlo : (2 : ℚ) ^ (Nat.log2 a.num.natAbs) ≤ (a.num.natAbs : ℚ) := by
    exact_mod_cast Nat.log2_self_le hN
  have hNhi : (a.num.natAbs : ℚ) < (2 : ℚ) ^ (Nat.log2 a.num.natAbs + 1) := by
    exact_mod_cast Nat.lt_log2_self
  have hDlo : (2 : ℚ) ^ (Nat.log2 a.den) ≤ (a.den : ℚ) := by
    exact_mod_cast Nat.log2_self_le hD
  have hDhi : (a.den : ℚ) < (2 : ℚ) ^ (Nat.log2 a.den + 1) := by
    exact_mod_cast Nat.lt_log2_self
  have hDpos : (0 : ℚ) < (a.den : ℚ) := by exact_mod_cast a.den_pos
  have hNabs : (a.num.natAbs : ℚ) = (a.num : ℚ) := by
    rw [Nat.cast_natAbs, abs_of_pos hnum]
  have ha_eq : a = (a.num.natAbs : ℚ) / (a.den : ℚ) := by
    rw [hNabs]
    exact (Rat.num_div_den a).symm
  have h2 : (0 : ℚ) < 2 := by norm_num
  have hupper : a < (2 : ℚ) ^ ((Nat.log2 a.num.natAbs : Int) - (Nat.log2 a.den : Int) + 1) := by
    have e1 : (2 : ℚ) ^ ((Nat.log2 a.num.natAbs : Int) - (Nat.log2 a.den : Int) + 1) =
        (2 : ℚ) ^ (Nat.log2 a.num.natAbs + 1) / (2 : ℚ) ^ (Nat.log2 a.den) := by
      rw [show ((Nat.log2 a.num.natAbs : Int) - (Nat.log2 a.den : Int) + 1) =
        ((Nat.log2 a.num.natAbs + 1 : Nat) : Int) - ((Nat.log2 a.den : Nat) : Int) by push_cast; ring]
      rw [zpow_sub₀ h2.ne', zpow_natCast, zpow_natCast]
    rw [e1]
    conv_lhs => rw [ha_eq]
    rw [div_lt_div_iff₀ hDpos (pow_pos h2 _)]
    calc (a.num.natAbs : ℚ) * (2 : ℚ) ^ (Nat.log2 a.den)
        ≤ (a.num.natAbs : ℚ) * (a.den : ℚ) := by
          apply mul_le_mul_of_nonneg_left hDlo
          exact_mod_cast Nat.zero_le _
      _ < (2 : ℚ) ^ (Nat.log2 a.num.natAbs + 1) * (a.den : ℚ) := by
          apply mul_lt_mul_of_pos_right hNhi hDpos
  have hlower : (2 : ℚ) ^ ((Nat.log2 a.num.natAbs : Int) - (Nat.log2 a.den : Int) - 1) ≤ a := by
    have e1 : (2 : ℚ) ^ ((Nat.log2 a.num.natAbs : Int) - (Nat.log2 a.den : Int) - 1) =
        (2 : ℚ) ^ (Nat.log2 a.num.natAbs) / (2 : ℚ) ^ (Nat.log2 a.den + 1) := by
      rw [show ((Nat.log2 a.num.natAbs : Int) - (Nat.log2 a.den : Int) - 1) =
        ((Nat.log2 a.num.natAbs : Nat) : Int) - ((Nat.log2 a.den + 1 : Nat) : Int) by push_cast; ring]
      rw [zpow_sub₀ h2.ne', zpow_natCast, zpow_natCast]
    rw [e1]
    conv_rhs => rw [ha_eq]
    rw [div_le_div_iff₀ (pow_pos h2 _) hDpos]
    calc (2 : ℚ) ^ (Nat.log2 a.num.natAbs) * (a.den : ℚ)
        ≤ (a.num.natAbs : ℚ) * (a.den : ℚ) := by
          apply mul_le_mul_of_nonneg_right hNlo hDpos.le
      _ ≤ (a.num.natAbs : ℚ) * (2 : ℚ) ^ (Nat.log2 a.den + 1) := by
          apply mul_le_mul_of_nonneg_left hDhi.le
          exact_mod_cast Nat.zero_le _
  unfold F64.exponent
  simp only
  split
  · exact ⟨by assumption, hupper⟩
  · rename_i hlt
    refine ⟨hlower, ?_⟩
    rw [sub_add_cancel]
    exact lt_of_not_le hlt

/-- The binade of a rational fixes its exponent. -/
theorem exponent_eq (a : ℚ) (e : Int) (h1 : (2 : ℚ) ^ e ≤ a) (h2 : a < (2 : ℚ) ^ (e + 1)) :
    F64.exponent a = e := by
  have ha : 0 < a := lt_of_lt_of_le (zpow_pos (by norm_num) e) h1
  obtain ⟨s1, s2⟩ := exponent_spec a ha
  have two : (1 : ℚ) < 2 := by norm_num
  have l1 : e < F64.exponent a + 1 := (zpow_lt_zpow_iff_right₀ two).mp (lt_of_le_of_lt h1 s2)
  have l2 : F64.exponent a < e + 1 := (zpow_lt_zpow_iff_right₀ two).mp (lt_of_le_of_lt s1 h2)
  omega

/-- A rational strictly within one half of an integer rounds to that integer. -/
theorem roundHalfEven_eq (x : ℚ) (n : Int) (h1 : (n : ℚ) - 1 / 2 < x) (h2 : x < n + 1 / 2) :
    F64.roundHalfEven x = n := by
  unfold F64.roundHalfEven
  simp only
  have hf1 : ((Int.floor x : Int) : ℚ) ≤ x := Int.floor_le x
  have hf2 : x < (Int.floor x : ℚ) + 1 := Int.lt_floor_add_one x
  have c1 : n - 1 ≤ Int.floor x := by
    apply Int.le_floor.mpr
    push_cast
    linarith
  have c2 : Int.floor x ≤ n := by
    have : Int.floor x < n + 1 := by
      apply Int.floor_lt.mpr
      push_cast
      linarith
    omega
  rcases (by omega : Int.floor x = n ∨ Int.floor x = n - 1) with h | h
  · rw [h]
    rw [if_pos (by linarith)]
  · rw [h]
    push_cast
    rw [if_neg (by linarith), if_pos (by linarith)]
    ring

/-- Rounding of a positive rational in a normal binade `[2^e, 2^(e+1))`: the result is the
multiple `n * 2^(e-52)` of the spacing of the binade nearest to it, when that is finite. -/
theorem round_pos_eq (q : ℚ) (e n : Int) (h1 : (2 : ℚ) ^ e ≤ q) (h2 : q < (2 : ℚ) ^ (e + 1))
    (he : -1022 ≤ e) (hn1 : (n : ℚ) - 1 / 2 < q / (2 : ℚ) ^ (e - 52))
    (hn2 : q / (2 : ℚ) ^ (e - 52) < n + 1 / 2)
    (hov : (n : ℚ) * (2 : ℚ) ^ (e - 52) < (2 : ℚ) ^ (1024 : Int)) :
    F64.round q = F64.num (n * (2 : ℚ) ^ (e - 52)) := by
  have hq : 0 < q := lt_of_lt_of_le (zpow_pos (by norm_num) e) h1
  have hexp : F64.exponent q = e := exponent_eq q e h1 h2
  have hupos : (0 : ℚ) < (2 : ℚ) ^ (e - 52) := zpow_pos (by norm_num) _
  have hn : F64.roundHalfEven (q / (2 : ℚ) ^ (e - 52)) = n := roundHalfEven_eq _ n hn1 hn2
  have hge : (2 : ℚ) ^ (52 : Int) ≤ q / (2 : ℚ) ^ (e - 52) := by
    rw [le_div_iff₀ hupos, ← zpow_add₀ (by norm_num : (2 : ℚ) ≠ 0)]
    rw [show (52 : Int) + (e - 52) = e by ring]
    exact h1
  have hn0 : n ≠ 0 := by
    intro h0
    rw [h0] at hn2
    norm_num at hn2
    have : (2 : ℚ) ^ (52 : Int) < 1 / 2 := lt_of_le_of_lt hge hn2
    norm_num at this
  unfold F64.round
  rw [if_neg hq.ne']
  simp only [abs_of_pos hq, hexp, max_eq_left he, hn]
  rw [if_neg (not_le.mpr hov), if_neg hn0, if_neg (not_lt.mpr hq.le)]

theorem add_num (a b : ℚ) : F64.add (F64.num a) (F64.num b) = F64.round (a + b) := rfl

theorem sub_num (a b : ℚ) (hb : b ≠ 0) :
    F64.sub (F64.num a) (F64.num b) = F64.round (a - b) := by
  simp [F64.sub, F64.neg, hb, F64.add, sub_eq_add_neg]

theorem div_num (a b : ℚ) (ha : a ≠ 0) (hb : b ≠ 0) :
    F64.div (F64.num a) (F64.num b) = F64.round (a / b) := by
  simp [F64.div, F64.finite, ha, hb]

theorem mul_num (a b : ℚ) (ha : a ≠ 0) (hb : b ≠ 0) :
    F64.mul (F64.num a) (F64.num b) = F64.round (a * b) := by
  simp [F64.mul, F64.finite, ha, hb]


theorem round_exact_171_2 : F64.round (171 / 2) = F64.num (171 / 2) := by
  rw [round_pos_eq (171 / 2) 6 (171 * 2 ^ 45) (by norm_num) (by norm_num) (by norm_num)
    (by norm_num) (by norm_num) (by norm_num)]
  norm_num

theorem round_exact_200 : F64.round 200 = F64.num 200 := by
  rw [round_pos_eq 200 7 (200 * 2 ^ 45) (by norm_num) (by norm_num) (by norm_num)
    (by norm_num) (by norm_num) (by norm_num)]
  norm_num

theorem round_exact_2 : F64.round 2 = F64.num 2 := by
  rw [round_pos_eq 2 1 (2 ^ 52) (by norm_num) (by norm_num) (by norm_num)
    (by norm_num) (by norm_num) (by norm_num)]
  norm_num

theorem round_exact_100 : F64.round 100 = F64.num 100 := by
  rw [round_pos_eq 100 6 (100 * 2 ^ 46) (by norm_num) (by norm_num) (by norm_num)
    (by norm_num) (by norm_num) (by norm_num)]
  norm_num

theorem round_exact_29 : F64.round 29 = F64.num 29 := by
  rw [round_pos_eq 29 4 (29 * 2 ^ 48) (by norm_num) (by norm_num) (by norm_num)
    (by norm_num) (by norm_num) (by norm_num)]
  norm_num

theorem round_exact_1 : F64.round 1 = F64.num 1 := by
  rw [round_pos_eq 1 0 (2 ^ 52) (by norm_num) (by norm_num) (by norm_num)
    (by norm_num) (by norm_num) (by norm_num)]
  norm_num

theorem round_29_100 :
    F64.round (29 / 100) = F64.num (5224175567749775 / 18014398509481984) := by
  rw [round_pos_eq (29 / 100) (-2) 5224175567749775 (by norm_num) (by norm_num) (by norm_num)
    (by norm_num) (by norm_num) (by norm_num)]
  norm_num

theorem round_29_down :
    F64.round (5224175567749775 / 18014398509481984 * 100) =
      F64.num (8162774324609023 / 281474976710656) := by
  rw [round_pos_eq (5224175567749775 / 18014398509481984 * 100) 4 8162774324609023
    (by norm_num) (by norm_num) (by norm_num) (by norm_num) (by norm_num) (by norm_num)]
  norm_num

theorem round_1_10 :
    F64.round (1 / 10) = F64.num (3602879701896397 / 36028797018963968) := by
  rw [round_pos_eq (1 / 10) (-4) 7205759403792794 (by norm_num) (by norm_num) (by norm_num)
    (by norm_num) (by norm_num) (by norm_num)]
  norm_num

theorem calculateFlatness_sample_window (n : NoFlatStrategy)
    (hθ : n.FlatThreshold = F64.num 29) :
    n.calculateFlatness [F64.num (171 / 2), F64.num (229 / 2)] =
      some (F64.num (8162774324609023 / 281474976710656), true) := by
  have l2 : F64.lt (F64.num (229 / 2)) (F64.num (171 / 2)) = false := by
    simp [F64.lt]; norm_num
  have l3 : F64.lt (F64.num (171 / 2)) (F64.num (229 / 2)) = true := by
    simp [F64.lt]; norm_num
  have a1 : F64.add (F64.num 0) (F64.num (171 / 2)) = F64.num (171 / 2) := by
    rw [add_num, zero_add, round_exact_171_2]
  have a2 : F64.add (F64.num (171 / 2)) (F64.num (229 / 2)) = F64.num 200 := by
    rw [add_num, show (171 / 2 : ℚ) + 229 / 2 = 200 by norm_num, round_exact_200]
  have a3 : F64.ofNat 2 = F64.num 2 := by
    simp only [F64.ofNat, Nat.cast_ofNat, round_exact_2]
  have a4 : F64.div (F64.num 200) (F64.num 2) = F64.num 100 := by
    rw [div_num _ _ (by norm_num) (by norm_num), show (200 : ℚ) / 2 = 100 by norm_num,
      round_exact_100]
  have a5 : F64.sub (F64.num (229 / 2)) (F64.num (171 / 2)) = F64.num 29 := by
    rw [sub_num _ _ (by norm_num), show (229 / 2 : ℚ) - 171 / 2 = 29 by norm_num,
      round_exact_29]
  have a6 : F64.div (F64.num 29) (F64.num 100) =
      F64.num (5224175567749775 / 18014398509481984) := by
    rw [div_num _ _ (by norm_num) (by norm_num), round_29_100]
  have a7 : F64.mul (F64.num (5224175567749775 / 18014398509481984)) (F64.num 100) =
      F64.num (8162774324609023 / 281474976710656) := by
    rw [mul_num _ _ (by norm_num) (by norm_num), round_29_down]
  have a8 : F64.lt (F64.num (8162774324609023 / 281474976710656)) (F64.num 29) = true := by
    simp [F64.lt]; norm_num
  simp only [NoFlatStrategy.calculateFlatness, List.foldl_cons, List.foldl_nil, flatnessStep,
    F64.gt, a1, a2, List.length_cons, List.length_nil, a3, a4, hθ]
  simp [l2, l3, a5, a6, a7, a8]

/-- The window `[85.5, 114.5]` has range 29 and mean 100, and `29 / 100 * 100` is 29 in
exact arithmetic. In `float64` the quotient rounds to `0.28999999999999998` and the product
to `28.999999999999996`, which is below the threshold 29: the window is flat and `Compute`
holds. -/
theorem calculateFlatness_rounds :
    sampleNoFlatRounding.calculateFlatness [F64.num (171 / 2), F64.num (229 / 2)] =
      some (F64.num (8162774324609023 / 281474976710656), true) ∧
    sampleNoFlatRounding.Compute [closeAt (171 / 2), closeAt (229 / 2)] =
      some [Action.Buy, Action.Hold] := by
  constructor
  · exact calculateFlatness_sample_window sampleNoFlatRounding rfl
  · simp [NoFlatStrategy.Compute, NoFlatStrategy.computeLoop, NoFlatStrategy.slide,
      calculateFlatness_sample_window, sampleNoFlatRounding, always, closeAt]

/-- The band width `(11 - 10) / 10` is `0.1` in exact arithmetic, which is below the
`float64` nearest to `0.1`. In `float64` the quotient rounds to that very value, so the
comparison `width >= Sensitivity` holds and the action is Buy. -/
theorem widthAction_rounds :
    sampleWidthRounding.widthAction (F64.num 11) (F64.num 10) (F64.num 10) = Action.Buy := by
  have a1 : F64.sub (F64.num 11) (F64.num 10) = F64.num 1 := by
    rw [sub_num _ _ (by norm_num), show (11 : ℚ) - 10 = 1 by norm_num, round_exact_1]
  have a2 : F64.div (F64.num 1) (F64.num 10) =
      F64.num (3602879701896397 / 36028797018963968) := by
    rw [div_num _ _ (by norm_num) (by norm_num), round_1_10]
  simp [BollingerBandsWidthStrategy.widthAction, a1, a2, sampleWidthRounding, F64.eq, F64.ge,
    F64.lt]

/-- Rounding of a positive rational overflows to `+Inf` when the nearest multiple of the
spacing of its binade reaches `2^1024`. -/
theorem round_pos_overflow (q : ℚ) (e n : Int) (h1 : (2 : ℚ) ^ e ≤ q)
    (h2 : q < (2 : ℚ) ^ (e + 1)) (he : -1022 ≤ e)
    (hn1 : (n : ℚ) - 1 / 2 < q / (2 : ℚ) ^ (e - 52))
    (hn2 : q / (2 : ℚ) ^ (e - 52) < n + 1 / 2)
    (hov : (2 : ℚ) ^ (1024 : Int) ≤ (n : ℚ) * (2 : ℚ) ^ (e - 52)) :
    F64.round q = F64.pinf := by
  have hq : 0 < q := lt_of_lt_of_le (zpow_pos (by norm_num) e) h1
  have hexp : F64.exponent q = e := exponent_eq q e h1 h2
  have hn : F64.roundHalfEven (q / (2 : ℚ) ^ (e - 52)) = n := roundHalfEven_eq _ n hn1 hn2
  unfold F64.round
  rw [if_neg hq.ne']
  simp only [abs_of_pos hq, hexp, max_eq_left he, hn]
  rw [if_pos hov]
  simp [F64.inf, not_lt.mpr hq.le]

theorem round_exact_7 : F64.round 7 = F64.num 7 := by
  rw [round_pos_eq 7 2 (7 * 2 ^ 50) (by norm_num) (by norm_num) (by norm_num)
    (by norm_num) (by norm_num) (by norm_num)]
  norm_num

theorem round_exact_5 : F64.round 5 = F64.num 5 := by
  rw [round_pos_eq 5 2 (5 * 2 ^ 50) (by norm_num) (by norm_num) (by norm_num)
    (by norm_num) (by norm_num) (by norm_num)]
  norm_num

theorem round_exact_7_2 : F64.round (7 / 2) = F64.num (7 / 2) := by
  rw [round_pos_eq (7 / 2) 1 (7 * 2 ^ 50) (by norm_num) (by norm_num) (by norm_num)
    (by norm_num) (by norm_num) (by norm_num)]
  norm_num

theorem round_10_7 :
    F64.round (5 / (7 / 2)) = F64.num (6433713753386423 / 4503599627370496) := by
  rw [round_pos_eq (5 / (7 / 2)) 0 6433713753386423 (by norm_num) (by norm_num) (by norm_num)
    (by norm_num) (by norm_num) (by norm_num)]
  norm_num

theorem round_1000_7_up :
    F64.round (6433713753386423 / 4503599627370496 * 100) =
      F64.num (5026338869833143 / 35184372088832) := by
  rw [round_pos_eq (6433713753386423 / 4503599627370496 * 100) 7 5026338869833143
    (by norm_num) (by norm_num) (by norm_num) (by norm_num) (by norm_num) (by norm_num)]
  norm_num

theorem calculateFlatness_sample_window_up (n : NoFlatStrategy)
    (hθ : n.FlatThreshold = F64.num (5026338869833143 / 35184372088832)) :
    n.calculateFlatness [F64.num 1, F64.num 6] =
      some (F64.num (5026338869833143 / 35184372088832), false) := by
  have l2 : F64.lt (F64.num 6) (F64.num 1) = false := by
    simp [F64.lt]
  have l3 : F64.lt (F64.num 1) (F64.num 6) = true := by
    simp [F64.lt]
  have a1 : F64.add (F64.num 0) (F64.num 1) = F64.num 1 := by
    rw [add_num, zero_add, round_exact_1]
  have a2 : F64.add (F64.num 1) (F64.num 6) = F64.num 7 := by
    rw [add_num, show (1 : ℚ) + 6 = 7 by norm_num, round_exact_7]
  have a3 : F64.ofNat 2 = F64.num 2 := by
    simp only [F64.ofNat, Nat.cast_ofNat, round_exact_2]
  have a4 : F64.div (F64.num 7) (F64.num 2) = F64.num (7 / 2) := by
    rw [div_num _ _ (by norm_num) (by norm_num), round_exact_7_2]
  have a5 : F64.sub (F64.num 6) (F64.num 1) = F64.num 5 := by
    rw [sub_num _ _ (by norm_num), show (6 : ℚ) - 1 = 5 by norm_num, round_exact_5]
  have a6 : F64.div (F64.num 5) (F64.num (7 / 2)) =
      F64.num (6433713753386423 / 4503599627370496) := by
    rw [div_num _ _ (by norm_num) (by norm_num), round_10_7]
  have a7 : F64.mul (F64.num (6433713753386423 / 4503599627370496)) (F64.num 100) =
      F64.num (5026338869833143 / 35184372088832) := by
    rw [mul_num _ _ (by norm_num) (by norm_num), round_1000_7_up]
  have a8 : F64.lt (F64.num (5026338869833143 / 35184372088832))
      (F64.num (5026338869833143 / 35184372088832)) = false := by
    simp [F64.lt]
  simp only [NoFlatStrategy.calculateFlatness, List.foldl_cons, List.foldl_nil, flatnessStep,
    F64.gt, a1, a2, List.length_cons, List.length_nil, a3, a4, hθ]
  simp [l2, l3, a5, a6, a7, a8]

/-- The window `[1, 6]` has range 5 and mean 3.5, and `5 / 3.5 * 100` is `1000 / 7` in
exact arithmetic, which is below the `float64` nearest to it. In `float64` the measure
rounds to that very value, so with it as threshold the measure is not below the threshold:
the window is not flat and `Compute` passes the inner Buy through. -/
theorem calculateFlatness_rounds_up :
    sampleNoFlatRoundingUp.calculateFlatness [F64.num 1, F64.num 6] =
      some (F64.num (5026338869833143 / 35184372088832), false) ∧
    sampleNoFlatRoundingUp.Compute [closeAt 1, closeAt 6] =
      some [Action.Buy, Action.Buy] ∧
    (1000 / 7 : ℚ) < 5026338869833143 / 35184372088832 := by
  refine ⟨calculateFlatness_sample_window_up sampleNoFlatRoundingUp rfl, ?_, by norm_num⟩
  simp [NoFlatStrategy.Compute, NoFlatStrategy.computeLoop, NoFlatStrategy.slide,
    calculateFlatness_sample_window_up, sampleNoFlatRoundingUp, always, closeAt]

theorem round_exact_pow_1023 : F64.round (2 ^ 1023) = F64.num (2 ^ 1023) := by
  rw [round_pos_eq (2 ^ 1023) 1023 (2 ^ 52) (by norm_num) (by norm_num) (by norm_num)
    (by norm_num) (by norm_num) (by norm_num)]
  norm_num

theorem round_exact_pow_1022 : F64.round (2 ^ 1022) = F64.num (2 ^ 1022) := by
  rw [round_pos_eq (2 ^ 1022) 1022 (2 ^ 52) (by norm_num) (by norm_num) (by norm_num)
    (by norm_num) (by norm_num) (by norm_num)]
  norm_num

theorem round_overflow_sum : F64.round (2 ^ 1023 + 3 * 2 ^ 1022) = F64.pinf :=
  round_pos_overflow (2 ^ 1023 + 3 * 2 ^ 1022) 1024 (5 * 2 ^ 50) (by norm_num) (by norm_num)
    (by norm_num) (by norm_num) (by norm_num) (by norm_num)

theorem calculateFlatness_sample_window_overflow (n : NoFlatStrategy)
    (hθ : n.FlatThreshold = F64.num 1) :
    n.calculateFlatness [F64.num sampleHuge, F64.num sampleHuger] =
      some (F64.num 0, true) := by
  have e1 : sampleHuge = 2 ^ 1023 := by unfold sampleHuge; rfl
  have e2 : sampleHuger = 3 * 2 ^ 1022 := by unfold sampleHuger; rfl
  have l1 : F64.lt (F64.num sampleHuge) (F64.num sampleHuge) = false := by
    simp [F64.lt]
  have l2 : F64.lt (F64.num sampleHuger) (F64.num sampleHuge) = false := by
    rw [e1, e2]; simp [F64.lt]; norm_num
  have l3 : F64.lt (F64.num sampleHuge) (F64.num sampleHuger) = true := by
    rw [e1, e2]; simp [F64.lt]; norm_num
  have a1 : F64.add (F64.num 0) (F64.num sampleHuge) = F64.num sampleHuge := by
    rw [add_num, zero_add, e1, round_exact_pow_1023]
  have a2 : F64.add (F64.num sampleHuge) (F64.num sampleHuger) = F64.pinf := by
    rw [add_num, e1, e2, round_overflow_sum]
  have a3 : F64.ofNat 2 = F64.num 2 := by
    simp only [F64.ofNat, Nat.cast_ofNat, round_exact_2]
  have a4 : F64.div F64.pinf (F64.num 2) = F64.pinf := by
    simp [F64.div, F64.finite, F64.inf, F64.signBit]
  have e3 : sampleHuger - sampleHuge = 2 ^ 1022 := by
    rw [e1, e2]; norm_num
  have a5 : F64.sub (F64.num sampleHuger) (F64.num sampleHuge) =
      F64.num (sampleHuger - sampleHuge) := by
    rw [sub_num _ _ (by rw [e1]; norm_num), e3, round_exact_pow_1022]
  have a6 : F64.div (F64.num (sampleHuger - sampleHuge)) F64.pinf = F64.num 0 := by
    have hpos : ¬ (sampleHuger - sampleHuge < 0) := by
      rw [e3]; norm_num
    simp [F64.div, F64.finite, F64.zero, F64.signBit, hpos]
  have a7 : F64.mul (F64.num 0) (F64.num 100) = F64.num 0 := by
    simp [F64.mul, F64.finite, F64.zero, F64.signBit]
  have a8 : F64.lt (F64.num 0) (F64.num 1) = true := by
    simp [F64.lt]
  simp only [NoFlatStrategy.calculateFlatness, List.foldl_cons, List.foldl_nil, flatnessStep,
    F64.gt, a1, a2, List.length_cons, List.length_nil, a3, a4, hθ]
  simp [l1, l2, l3, a5, a6, a7, a8]

/-- The window `[2^1023, 1.5 * 2^1023]` has range `2^1022` and mean `1.25 * 2^1023`, and
the measure is 40 in exact arithmetic. In `float64` the sum of the two prices overflows to
`+Inf`, so the mean is `+Inf` and the measure is 0, which is below the threshold 1: the
window is flat and `Compute` holds. -/
theorem calculateFlatness_overflows :
    sampleNoFlat.calculateFlatness [F64.num sampleHuge, F64.num sampleHuger] =
      some (F64.num 0, true) ∧
    sampleNoFlat.Compute [closeAt sampleHuge, closeAt sampleHuger] =
      some [Action.Buy, Action.Hold] ∧
    (sampleHuger - sampleHuge) / ((sampleHuge + sampleHuger) / 2) * 100 = 40 := by
  refine ⟨calculateFlatness_sample_window_overflow sampleNoFlat rfl, ?_, ?_⟩
  · simp [NoFlatStrategy.Compute, NoFlatStrategy.computeLoop, NoFlatStrategy.slide,
      calculateFlatness_sample_window_overflow, sampleNoFlat, always, closeAt]
  · unfold sampleHuge sampleHuger
    norm_num

end Indicator
